import Mathlib

/-!
Verification of the `pretty.py` pretty-printer (value compiler + layout
engine).  The Python source is shallowly embedded: the document tree
(`Flex` nodes / plain strings) becomes the inductive `FOS`; the mutable
`OutputBuilder` becomes the explicit state `OB`; the layout engine
`Formatter.format` becomes the structurally recursive `format` (with a
literally-fueled variant `formatF` used to establish termination of the
source's self-call); the value compiler `FlexMaker.make` becomes the
fueled `make` over an identity-addressed heap of runtime values, with the
`_processing` identity set threaded explicitly.
-/

/-! ## OutputBuilder (the line accumulator) -/

/-- The `OutputBuilder`: completed lines plus the current line.  The
Python original stores the current line as a chunk list with a cached
size; `current` here is the joined chunk list, so `current.length` is
`current_size()`. -/
structure OB where
  lines : List String
  current : String

def OB.empty : OB := ⟨[], ""⟩

/-- `OutputBuilder.add`. -/
def OB.add (out : OB) (s : String) : OB := ⟨out.lines, out.current ++ s⟩

/-- `OutputBuilder.new_line`: complete the current line. -/
def OB.flush (out : OB) : OB := ⟨out.lines ++ [out.current], ""⟩

/-- `indent_unit` repeated `n` times (what `Formatter.new_line` writes
after flushing). -/
def indentStr (iu : String) : Nat → String
  | 0 => ""
  | n + 1 => indentStr iu n ++ iu

/-- `Formatter.new_line`: flush, then write the indent for `lvl`. -/
def fmtNewLine (iu : String) (out : OB) (lvl : Nat) : OB :=
  ⟨out.lines ++ [out.current], indentStr iu lvl⟩

/-! ## The compiled document tree (`Flex` nodes and plain strings) -/

/-- A compiled value: either a plain string or a `Flex` node
(`head`, `items`, `tail`, `all_or_nothing_on_same_line`). -/
inductive FOS where
  | str (s : String)
  | flex (head : String) (items : List FOS) (tail : String) (aon : Bool)

/-! ## Width accounting (`Formatter.total_width` / `Formatter.body_width`) -/

mutual

/-- `Formatter.total_width`. -/
def totalWidth : FOS → Nat
  | .str s => s.length
  | .flex h items t _ => h.length + bodyWidth items + t.length

/-- `Formatter.body_width`: widths of the children plus 2 between each
consecutive pair (the `", "` separator of single-line mode). -/
def bodyWidth : List FOS → Nat
  | [] => 0
  | [y] => totalWidth y
  | y :: z :: ys => totalWidth y + 2 + bodyWidth (z :: ys)

end

/-! ## Forced single-line rendering (`Formatter.format_single_line`) -/

mutual

/-- `Formatter.format_single_line`. -/
def formatSingleLine : FOS → OB → OB
  | .str s, out => out.add s
  | .flex h items t _, out => (slItems items (out.add h)).add t

/-- The child loop of `format_single_line` (`first` still true). -/
def slItems : List FOS → OB → OB
  | [], out => out
  | y :: ys, out => slItemsRest ys (formatSingleLine y out)

/-- The child loop of `format_single_line` after the first child: each
further child is preceded by `", "`. -/
def slItemsRest : List FOS → OB → OB
  | [], out => out
  | y :: ys, out => slItemsRest ys (formatSingleLine y (out.add ", "))

end

/-! ## The layout engine (`Formatter.format`)

The Python `format` calls itself on the same node after a forced break
(`output.add(","); self.new_line(output, level); self.format(x, ...)`).
After `new_line`, the writing position equals `level * len(indent_unit)`,
so that self-call cannot take the `position > floor` branch again; the
definition below therefore proceeds directly to the re-dispatch, which
makes the recursion structural.  The fueled `formatF` further down mirrors
the source literally (re-checking the position on the self-call), and the
two are proved to agree, which certifies this shortcut. -/

mutual

/-- `Formatter.format`.  Returns the new builder state and the `multiline`
flag. -/
def format (iu : String) (maxW : Int) (x : FOS) (out : OB) (lvl : Nat) (fm : Bool) :
    OB × Bool :=
  if out.current.length > lvl * iu.length ∧
      ¬ (fm ∨ (totalWidth x : Int) + 2 > maxW - out.current.length) then
    (formatSingleLine x (out.add ", "), false)
  else
    let o := if out.current.length > lvl * iu.length then fmtNewLine iu (out.add ",") lvl else out
    match x with
    | .str s => (o.add s, false)
    | .flex h items t aon =>
      if (totalWidth (.flex h items t aon) : Int) ≤ maxW - o.current.length then
        (formatSingleLine (.flex h items t aon) o, false)
      else
        let o1 := o.add h
        let o2 :=
          if items.isEmpty then o1
          else
            let o3 := fmtNewLine iu o1 (lvl + 1)
            if aon then aonItems iu maxW items o3 (lvl + 1)
            else (seqItems iu maxW items o3 (lvl + 1) false).1
        ((fmtNewLine iu o2 lvl).add t, true)

/-- The `all_or_nothing_on_same_line` child loop of the broken branch
(first child: no separator). -/
def aonItems (iu : String) (maxW : Int) : List FOS → OB → Nat → OB
  | [], out, _ => out
  | y :: ys, out, lvl => aonItemsRest iu maxW ys (format iu maxW y out lvl false).1 lvl

/-- The `all_or_nothing_on_same_line` child loop after the first child:
`","` plus a forced new line before each further child. -/
def aonItemsRest (iu : String) (maxW : Int) : List FOS → OB → Nat → OB
  | [], out, _ => out
  | y :: ys, out, lvl =>
      aonItemsRest iu maxW ys (format iu maxW y (fmtNewLine iu (out.add ",") lvl) lvl false).1 lvl

/-- The ordinary child loop of the broken branch, threading
`last_was_multiline`. -/
def seqItems (iu : String) (maxW : Int) : List FOS → OB → Nat → Bool → OB × Bool
  | [], out, _, fm => (out, fm)
  | y :: ys, out, lvl, fm =>
      let r := format iu maxW y out lvl fm
      seqItems iu maxW ys r.1 lvl r.2

end

/-! ## The literally-fueled layout engine

`formatF` transcribes the Python `format` with no shortcut: the forced
break branch emits `","`, starts a new line, and calls the function again
on the same node, re-checking the position.  The fuel argument makes the
definition total; running out of fuel yields `none`. -/

/-- The ordinary child loop, for a given one-step renderer. -/
def seqItemsF (f : FOS → OB → Nat → Bool → Option (OB × Bool)) :
    List FOS → OB → Nat → Bool → Option (OB × Bool)
  | [], out, _, fm => some (out, fm)
  | y :: ys, out, lvl, fm => do
      let r ← f y out lvl fm
      seqItemsF f ys r.1 lvl r.2

/-- The all-or-nothing child loop after the first child, for a given
one-step renderer. -/
def aonItemsRestF (iu : String) (f : FOS → OB → Nat → Bool → Option (OB × Bool)) :
    List FOS → OB → Nat → Option OB
  | [], out, _ => some out
  | y :: ys, out, lvl => do
      let r ← f y (fmtNewLine iu (out.add ",") lvl) lvl false
      aonItemsRestF iu f ys r.1 lvl

/-- The all-or-nothing child loop, for a given one-step renderer. -/
def aonItemsF (iu : String) (f : FOS → OB → Nat → Bool → Option (OB × Bool)) :
    List FOS → OB → Nat → Option OB
  | [], out, _ => some out
  | y :: ys, out, lvl => do
      let r ← f y out lvl false
      aonItemsRestF iu f ys r.1 lvl

/-- `Formatter.format`, transcribed literally with a fuel counter. -/
def formatF (iu : String) (maxW : Int) : Nat → FOS → OB → Nat → Bool → Option (OB × Bool)
  | 0, _, _, _, _ => none
  | fuel + 1, x, out, lvl, fm =>
    if out.current.length > lvl * iu.length then
      if fm ∨ (totalWidth x : Int) + 2 > maxW - out.current.length then
        formatF iu maxW fuel x (fmtNewLine iu (out.add ",") lvl) lvl false
      else
        some (formatSingleLine x (out.add ", "), false)
    else
      match x with
      | .str s => some (out.add s, false)
      | .flex h items t aon =>
        if (totalWidth (.flex h items t aon) : Int) ≤ maxW - out.current.length then
          some (formatSingleLine (.flex h items t aon) out, false)
        else
          let o1 := out.add h
          match
            (if items.isEmpty then some o1
             else
               let o3 := fmtNewLine iu o1 (lvl + 1)
               if aon then aonItemsF iu (formatF iu maxW fuel) items o3 (lvl + 1)
               else (seqItemsF (formatF iu maxW fuel) items o3 (lvl + 1) false).map Prod.fst) with
          | none => none
          | some o2 => some ((fmtNewLine iu o2 lvl).add t, true)

mutual

/-- Fuel sufficient to run `formatF` on a node, whatever the state. -/
def fuelNeedF : FOS → Nat
  | .str _ => 2
  | .flex _ items _ _ => 2 + fuelNeedL items

/-- Fuel sufficient for every node of a child list. -/
def fuelNeedL : List FOS → Nat
  | [] => 0
  | y :: ys => max (fuelNeedF y) (fuelNeedL ys)

end

/-! ## Structural measures of a compiled tree (used to state the width
bound) -/

mutual

/-- Nesting height of a compiled tree (a plain string has height 0). -/
def heightF : FOS → Nat
  | .str _ => 0
  | .flex _ items _ _ => heightL items + 1

/-- Nesting height of a child list. -/
def heightL : List FOS → Nat
  | [] => 0
  | y :: ys => max (heightF y) (heightL ys)

end

mutual

/-- Widest atomic token (plain string, head, or tail) in a compiled
tree. -/
def maxTok : FOS → Nat
  | .str s => s.length
  | .flex h items t _ => max (max h.length t.length) (maxTokL items)

/-- Widest atomic token in a child list. -/
def maxTokL : List FOS → Nat
  | [] => 0
  | y :: ys => max (maxTok y) (maxTokL ys)

end

mutual

/-- All atomic tokens (plain strings, heads, tails) of a compiled tree. -/
def fosTokens : FOS → List String
  | .str s => [s]
  | .flex h items t _ => h :: (fosTokensL items ++ [t])

/-- All atomic tokens of a child list. -/
def fosTokensL : List FOS → List String
  | [] => []
  | y :: ys => fosTokens y ++ fosTokensL ys

end

/-! ## Substring testing (used to state the width-bound exception and the
cycle-sentinel property) -/

/-- Does the pattern occur at the head of the text? -/
def chStarts : List Char → List Char → Bool
  | [], _ => true
  | _ :: _, [] => false
  | c :: ts, d :: ds => c == d && chStarts ts ds

/-- Does the pattern occur anywhere in the text? -/
def chHas : List Char → List Char → Bool
  | t, [] => chStarts t []
  | t, d :: ds => chStarts t (d :: ds) || chHas t ds

/-- `t` occurs as a contiguous substring of `s`. -/
def strHas (s t : String) : Prop := chHas t.data s.data = true

instance (s t : String) : Decidable (strHas s t) := by
  unfold strHas; infer_instance

/-! ## Runtime values

Python values are identity-addressed objects; the heap maps each identity
to the node stored there.  Primitive kinds (`None`, booleans, ints,
longs, floats, strings, unicode, functions, types) are represented by
their `repr` text, as is the `else` fallback of `make`; dictionary keys
are likewise carried as their (eagerly computed) `repr` text. -/

abbrev Ref := Nat

/-- One runtime value, as `FlexMaker.make` distinguishes them. -/
inductive PNode where
  | prim (rep : String)
  | symbol (nm : String)
  | record (nm : String) (fields : List Ref) (opener closer : String) (aon : Bool)
  | field (nm : String) (value : Ref) (sep : String)
  | tup (items : List Ref)
  | lst (items : List Ref)
  | sett (items : List Ref)
  | dict (entries : List (String × Ref))
  | other (rep : String)

/-- The object heap: every identity holds some value. -/
abbrev Heap := Ref → PNode

/-- The `repr` of a value of primitive type, `none` for non-primitives. -/
def PNode.primRepr : PNode → Option String
  | .prim rep => some rep
  | _ => none

/-- The process-wide extension state: the `_custom_prettifiers` registry
(in registration order) and the optional `to_pretty` capability of each
object. -/
structure Env where
  prettifiers : List ((Ref → Bool) × (Ref → Ref))
  toPretty : Ref → Option Ref

/-- The state of the module before any `install_custom_prettifier` call,
with no value exposing `to_pretty`. -/
def emptyEnv : Env := ⟨[], fun _ => none⟩

/-- Scan the registry in registration order; first matching predicate
wins. -/
def findPrettifier : List ((Ref → Bool) × (Ref → Ref)) → Ref → Option (Ref → Ref)
  | [], _ => none
  | pt :: rest, r => if pt.1 r then some pt.2 else findPrettifier rest r

/-- `child_all_or_nothing_on_same_line`: does some compiled child which is
a `Flex` node carry the flag? -/
def childAon : List FOS → Bool
  | [] => false
  | .str _ :: ys => childAon ys
  | .flex _ _ _ a :: ys => a || childAon ys

/-- The `Field` combination step of `make`: a string child is glued onto
the head; a `Flex` child contributes its items and tail, its head glued
onto the new head, its flag inherited. -/
def combineField (head : String) : FOS → FOS
  | .str s => .str (head ++ s)
  | .flex h items t a => .flex (head ++ h) items t a

/-- The sentinel substituted for a value already being compiled. -/
def cycleSentinel : String := "<ERROR:cycle>"

/-- Compile each of a list of children in order, threading the
`_processing` state, with a given one-value compiler. -/
def seqCompile (mk : Finset Ref → Ref → Option (FOS × Finset Ref)) :
    Finset Ref → List Ref → Option (List FOS × Finset Ref)
  | s, [] => some ([], s)
  | s, c :: cs => do
      let r1 ← mk s c
      let r2 ← seqCompile mk r1.2 cs
      some (r1.1 :: r2.1, r2.2)

/-- Compile each dictionary entry in order: a fresh `Field` named by the
key's `repr` (default separator `": "`) wrapping the entry's value. -/
def dictCompile (mk : Finset Ref → Ref → Option (FOS × Finset Ref)) :
    Finset Ref → List (String × Ref) → Option (List FOS × Finset Ref)
  | s, [] => some ([], s)
  | s, kv :: kvs => do
      let r1 ← mk s kv.2
      let r2 ← dictCompile mk r1.2 kvs
      some (combineField (kv.1 ++ ": ") r1.1 :: r2.1, r2.2)

/-- `FlexMaker.make`, fueled.  Primitive types are returned by `repr`
before any other consideration; then the identity-based cycle check; then
the custom-prettifier registry (first match wins), the `to_pretty` hook,
and the built-in kinds; unknown kinds fall back to `repr`.  The identity
is inserted into `_processing` before the body runs and removed from the
resulting state afterwards. -/
def make (env : Env) (heap : Heap) : Nat → Finset Ref → Ref → Option (FOS × Finset Ref)
  | 0, _, _ => none
  | fuel + 1, s, r =>
    match (heap r).primRepr with
    | some rep => some (.str rep, s)
    | none =>
      if r ∈ s then some (.str cycleSentinel, s)
      else
        let s1 := insert r s
        let body : Option (FOS × Finset Ref) :=
          match findPrettifier env.prettifiers r with
          | some tr => make env heap fuel s1 (tr r)
          | none =>
            match env.toPretty r with
            | some r2 => make env heap fuel s1 r2
            | none =>
              match heap r with
              | .prim rep => some (.str rep, s1)
              | .symbol nm => some (.str nm, s1)
              | .record nm fs op cl aon => do
                  let ri ← seqCompile (make env heap fuel) s1 fs
                  some (.flex (nm ++ op) ri.1 cl (aon || childAon ri.1), ri.2)
              | .field nm v sep => do
                  let ri ← make env heap fuel s1 v
                  some (combineField (nm ++ sep) ri.1, ri.2)
              | .tup is => do
                  let ri ← seqCompile (make env heap fuel) s1 is
                  some (.flex "(" ri.1 ")" (childAon ri.1), ri.2)
              | .lst is => do
                  let ri ← seqCompile (make env heap fuel) s1 is
                  some (.flex "[" ri.1 "]" (childAon ri.1), ri.2)
              | .sett is => do
                  let ri ← seqCompile (make env heap fuel) s1 is
                  some (.flex "set(" ri.1 ")" (childAon ri.1), ri.2)
              | .dict es => do
                  let ri ← dictCompile (make env heap fuel) s1 es
                  some (.flex "\x7b" ri.1 "\x7d" true, ri.2)
              | .other rep => some (.str rep, s1)
        match body with
        | none => none
        | some res => some (res.1, res.2.erase r)

/-! Note: the `.prim` case inside the innermost dispatch is unreachable
(primitive values are returned before the cycle check); it is transcribed
as the `repr` result it would produce. -/

/-! ## The entry points (`format` / `to_string`) -/

/-- Render a compiled tree from a fresh builder at level 0, position 0,
then complete the last line (the `output.new_line()` of the `format`
entry point). -/
def topFormatLines (iu : String) (maxW : Int) (x : FOS) : List String :=
  ((format iu maxW x OB.empty 0 false).1.flush).lines

/-- The `format(x, max_width, indent_unit)` entry point: compile, render,
return the completed lines. -/
def renderLines (env : Env) (heap : Heap) (fuel : Nat) (maxW : Int) (iu : String) (r : Ref) :
    Option (List String) :=
  match make env heap fuel ∅ r with
  | none => none
  | some res => some (topFormatLines iu maxW res.1)

/-- The `to_string(x)` entry point up to its assertion: compile, render
forced single-line into a fresh builder, complete the last line, and
return the completed lines (the assertion says there is exactly one). -/
def toStringRun (env : Env) (heap : Heap) (fuel : Nat) (r : Ref) : Option (List String) :=
  match make env heap fuel ∅ r with
  | none => none
  | some res => some (((formatSingleLine res.1 OB.empty).flush).lines)

/-! ## The child relation of compilation (default environment)

With an empty registry and no `to_pretty` hooks, `make` recurses exactly
into these identities. -/

/-- The identities a value's compilation recurses into. -/
def childRefs : PNode → List Ref
  | .prim _ => []
  | .symbol _ => []
  | .record _ fs _ _ _ => fs
  | .field _ v _ => [v]
  | .tup is => is
  | .lst is => is
  | .sett is => is
  | .dict es => es.map Prod.snd
  | .other _ => []

/-- Reachability along the child relation. -/
inductive Reaches (heap : Heap) : Ref → Ref → Prop where
  | refl (r : Ref) : Reaches heap r r
  | head {r c v : Ref} : c ∈ childRefs (heap r) → Reaches heap c v → Reaches heap r v

/-- A value that directly or indirectly contains itself. -/
def CycleAt (heap : Heap) (v : Ref) : Prop :=
  ∃ c ∈ childRefs (heap v), Reaches heap c v

/-- The compilation walk from `r`, with identity set `s` active, is bound
to run into the cycle check: some path of fresh identities from `r` ends
in a child already on the (extended) active path. -/
inductive WillCycle (heap : Heap) : Finset Ref → Ref → Prop where
  | hit {s : Finset Ref} {r c : Ref} : r ∉ s → c ∈ childRefs (heap r) →
      c ∈ insert r s → WillCycle heap s r
  | step {s : Finset Ref} {r c : Ref} : r ∉ s → c ∈ childRefs (heap r) →
      WillCycle heap (insert r s) c → WillCycle heap s r

mutual

/-- Some leaf of the compiled tree ends in the cycle sentinel (`Field`
compilation can glue a prefix onto a leaf, never a suffix). -/
def hasCycMark : FOS → Prop
  | .str s => cycleSentinel.data <:+ s.data
  | .flex _ items _ _ => hasCycMarkL items

/-- Some leaf of some tree in the list ends in the cycle sentinel. -/
def hasCycMarkL : List FOS → Prop
  | [] => False
  | y :: ys => hasCycMark y ∨ hasCycMarkL ys

end

/-! ## Derived semantic definitions used by the statements -/

mutual

/-- The text `format_single_line` emits for a tree. -/
def slString : FOS → String
  | .str s => s
  | .flex h items t _ => h ++ (slBodyStr items ++ t)

/-- The text `format_single_line` emits for a child list (first child
still pending). -/
def slBodyStr : List FOS → String
  | [] => ""
  | y :: ys => slString y ++ slRestStr ys

/-- The text `format_single_line` emits for the children after the first:
`", "` before each. -/
def slRestStr : List FOS → String
  | [] => ""
  | y :: ys => ", " ++ (slString y ++ slRestStr ys)

end

/-- Running width of the children after the first in single-line mode
(2 separator columns before each). -/
def bodyWidthR : List FOS → Nat
  | [] => 0
  | y :: ys => 2 + totalWidth y + bodyWidthR ys

/-- All completed lines are at most `C` long, and the open line leaves
room for the `","` a forced break may append to it. -/
def OBbound (C : Nat) (out : OB) : Prop :=
  (∀ L ∈ out.lines, L.length ≤ C) ∧ out.current.length + 1 ≤ C

/-- The line-length budget the layout engine actually guarantees for a
tree rendered at `lvl`: the width budget, or the deepest indent plus the
widest atomic token, whichever is larger, plus one column for a trailing
`","`. -/
def lineBound (iu : String) (maxW : Int) (x : FOS) (lvl : Nat) : Nat :=
  max maxW.toNat ((lvl + heightF x) * iu.length + maxTok x) + 1

/-- The same budget for a child list at `lvl`. -/
def lineBoundL (iu : String) (maxW : Int) (l : List FOS) (lvl : Nat) : Nat :=
  max maxW.toNat ((lvl + heightL l) * iu.length + maxTokL l) + 1

/-- The width-bound property as the specification states it: a line is
within budget unless it carries an atomic token of the tree that is
itself over budget. -/
def lineOkC1 (maxW : Int) (toks : List String) (L : String) : Prop :=
  (L.length : Int) ≤ maxW ∨ ∃ t ∈ toks, strHas L t ∧ (t.length : Int) > maxW

instance (maxW : Int) (toks : List String) (L : String) : Decidable (lineOkC1 maxW toks L) := by
  unfold lineOkC1
  infer_instance

/-- `t` occurs in `s` with an explicit decomposition. -/
def SubStrP (t s : String) : Prop := ∃ u v, s = u ++ t ++ v

/-- The builder already carries the cycle sentinel, in a completed line
or in the open line. -/
def OBholds (out : OB) : Prop :=
  (∃ L ∈ out.lines, SubStrP cycleSentinel L) ∨ SubStrP cycleSentinel out.current

/-- Builder evolution: the layout engine only appends, so the completed
lines survive and the open line survives as a prefix of the new open line
or of some completed line. -/
def ObExtends (a b : OB) : Prop :=
  (∃ tl, b.lines = a.lines ++ tl) ∧
    (∃ e, b.current = a.current ++ e ∨ (a.current ++ e) ∈ b.lines)

/-- `S` covers every identity holding a non-primitive value. -/
def NonPrimSupport (S : Finset Ref) (heap : Heap) : Prop :=
  ∀ r : Ref, (heap r).primRepr = none → r ∈ S

/-! ## Concrete instances used to test the claims -/

/-- A triply nested list holding one long string:
`[[['aaaaaaaaaa']]]` (the string's `repr` is 12 columns wide). -/
def c1cexHeap : Heap := fun n =>
  if n = 0 then .lst [1] else if n = 1 then .lst [2] else if n = 2 then .lst [3]
  else .prim "'aaaaaaaaaa'"

/-- The compiled tree of `c1cexHeap`'s root. -/
def c1cexTree : FOS :=
  .flex "[" [.flex "[" [.flex "[" [.str "'aaaaaaaaaa'"] "]" false] "]" false] "]" false

/-- The list `[1, 2, 3]` of small integers. -/
def wTripleHeap : Heap := fun n =>
  if n = 0 then .lst [1, 2, 3] else if n = 1 then .prim "1" else if n = 2 then .prim "2"
  else .prim "3"

/-- A list whose first element is a large nested list and whose later
elements are small integers: `[['xxxxxxxxxx'], 1, 2]`. -/
def c6cexHeap : Heap := fun n =>
  if n = 0 then .lst [1, 2, 3] else if n = 1 then .lst [4]
  else if n = 2 then .prim "1" else if n = 3 then .prim "2"
  else .prim "'xxxxxxxxxx'"

/-- The mapping `{'a': 1, 'b': [1, 2, 3]}`. -/
def c5witHeap : Heap := fun n =>
  if n = 0 then .dict [("'a'", 1), ("'b'", 2)] else if n = 1 then .prim "1"
  else if n = 2 then .lst [3, 4, 5]
  else if n = 3 then .prim "1" else if n = 4 then .prim "2" else .prim "3"

/-- A list that contains itself; every other identity is primitive. -/
def c2witHeap : Heap := fun n => if n = 0 then .lst [0] else .prim "0"

/-- A registry whose single prettifier matches everything and redirects
to identity 1. -/
def c3cexEnv : Env := ⟨[(fun _ => true, fun _ => 1)], fun _ => none⟩

/-- Identity 0 is the integer 5; identity 1 is `Symbol("X")`. -/
def c3cexHeap : Heap := fun n => if n = 0 then .prim "5" else .symbol "X"

/-- A registry whose single prettifier matches everything and whose
transform always hands back a fresh (never previously compiled)
non-primitive object, as a Python transform allocating a new container
on every call does. -/
def c4cexEnv : Env := ⟨[(fun _ => true, fun r => r + 1)], fun _ => none⟩

/-- Every identity holds an empty tuple (all distinct objects). -/
def c4cexHeap : Heap := fun _ => .tup []

/-- A list holding the same object twice: `[x, x]` with `x = 7`. -/
def c9witHeap : Heap := fun n => if n = 0 then .lst [1, 1] else .prim "7"

/-- A prettifier that matches only identity 0 (an empty list) and
transforms it into identity 1, which is `Symbol("X")`. -/
def c3witEnv : Env := ⟨[(fun r => r == 0, fun _ => 1)], fun _ => none⟩

/-- Identity 0 is an empty list, identity 1 is `Symbol("X")`. -/
def c3witHeap : Heap := fun n => if n = 0 then .lst [] else .symbol "X"

/-! ## Basic lemmas about the builder and single-line rendering -/

theorem OB.add_add (out : OB) (a b : String) : (out.add a).add b = out.add (a ++ b) := by
  simp [OB.add, String.append_assoc]

theorem indentStr_length (iu : String) : ∀ n, (indentStr iu n).length = n * iu.length
  | 0 => by simp [indentStr]
  | n + 1 => by
    simp [indentStr, String.length_append, indentStr_length iu n, Nat.succ_mul]

mutual

theorem formatSingleLine_eq : ∀ (x : FOS) (out : OB),
    formatSingleLine x out = out.add (slString x)
  | .str s, out => rfl
  | .flex h items t a, out => by
    simp [formatSingleLine, slString, slItems_eq items, OB.add_add, String.append_assoc]

theorem slItems_eq : ∀ (l : List FOS) (out : OB), slItems l out = out.add (slBodyStr l)
  | [], out => by simp [slItems, slBodyStr, OB.add]
  | y :: ys, out => by
    simp [slItems, slBodyStr, formatSingleLine_eq y, slItemsRest_eq ys, OB.add_add]

theorem slItemsRest_eq : ∀ (l : List FOS) (out : OB), slItemsRest l out = out.add (slRestStr l)
  | [], out => by simp [slItemsRest, slRestStr, OB.add]
  | y :: ys, out => by
    simp [slItemsRest, slRestStr, formatSingleLine_eq y, slItemsRest_eq ys, OB.add_add,
      String.append_assoc]

end

theorem bodyWidth_cons : ∀ (y : FOS) (l : List FOS),
    bodyWidth (y :: l) = totalWidth y + bodyWidthR l
  | _, [] => by simp [bodyWidth, bodyWidthR]
  | y, z :: ys => by
    simp only [bodyWidth, bodyWidthR, bodyWidth_cons z ys]; omega

mutual

theorem slString_length : ∀ x : FOS, (slString x).length = totalWidth x
  | .str _ => rfl
  | .flex h items t _ => by
    simp only [slString, totalWidth, String.length_append, slBodyStr_length items]; omega

theorem slBodyStr_length : ∀ l : List FOS, (slBodyStr l).length = bodyWidth l
  | [] => by simp [slBodyStr, bodyWidth]
  | y :: ys => by
    simp only [slBodyStr, String.length_append, slString_length y, slRestStr_length ys,
      bodyWidth_cons]

theorem slRestStr_length : ∀ l : List FOS, (slRestStr l).length = bodyWidthR l
  | [] => by simp [slRestStr, bodyWidthR]
  | y :: ys => by
    have hsep : (", " : String).length = 2 := rfl
    simp only [slRestStr, String.length_append, slString_length y, slRestStr_length ys,
      bodyWidthR, hsep]
    omega

end

/-! ## Substring lemmas -/

theorem chStarts_self_append : ∀ t v : List Char, chStarts t (t ++ v) = true
  | [], _ => rfl
  | c :: ts, v => by simp [chStarts, chStarts_self_append ts v]

theorem chHas_self : ∀ t v : List Char, chHas t (t ++ v) = true
  | [], [] => rfl
  | [], d :: ds => by simp [chHas, chStarts]
  | c :: ts, v => by
    have hs := chStarts_self_append (c :: ts) v
    rw [List.cons_append] at hs
    rw [List.cons_append]
    simp [chHas, hs]

theorem chHas_decomp : ∀ u t v : List Char, chHas t (u ++ (t ++ v)) = true
  | [], t, v => by simpa using chHas_self t v
  | d :: us, t, v => by
    rw [List.cons_append]
    simp only [chHas, chHas_decomp us t v]
    simp

theorem strHas_of_subStrP {t s : String} (h : SubStrP t s) : strHas s t := by
  obtain ⟨u, v, rfl⟩ := h
  simp only [strHas, String.data_append, List.append_assoc]
  exact chHas_decomp u.data t.data v.data

theorem SubStrP.mono_right {t s : String} (e : String) (h : SubStrP t s) :
    SubStrP t (s ++ e) := by
  obtain ⟨u, v, rfl⟩ := h
  exact ⟨u, v ++ e, by simp [String.append_assoc]⟩

theorem SubStrP.mono_left {t s : String} (a : String) (h : SubStrP t s) :
    SubStrP t (a ++ s) := by
  obtain ⟨u, v, rfl⟩ := h
  exact ⟨a ++ u, v, by simp [String.append_assoc]⟩

theorem SubStrP.self (t : String) : SubStrP t t := ⟨"", "", by simp⟩

theorem subStrP_of_suffix {t s : String} (h : t.data <:+ s.data) : SubStrP t s := by
  obtain ⟨pre, hpre⟩ := h
  refine ⟨⟨pre⟩, "", ?_⟩
  apply String.ext
  simp [String.data_append, hpre]

/-! ## Builder evolution -/

theorem ObExtends.me (a : OB) : ObExtends a a := ⟨⟨[], by simp⟩, ⟨"", Or.inl (by simp)⟩⟩

theorem ObExtends.trans {a b c : OB} (h1 : ObExtends a b) (h2 : ObExtends b c) :
    ObExtends a c := by
  obtain ⟨⟨t1, ht1⟩, ⟨e1, he1⟩⟩ := h1
  obtain ⟨⟨t2, ht2⟩, ⟨e2, he2⟩⟩ := h2
  refine ⟨⟨t1 ++ t2, by simp [ht2, ht1]⟩, ?_⟩
  rcases he1 with he1 | he1
  · rcases he2 with he2 | he2
    · exact ⟨e1 ++ e2, Or.inl (by simp [he2, he1, String.append_assoc])⟩
    · exact ⟨e1 ++ e2, Or.inr (by rw [← String.append_assoc, ← he1]; exact he2)⟩
  · exact ⟨e1, Or.inr (by rw [ht2]; exact List.mem_append_left _ he1)⟩

theorem ObExtends.addR (a : OB) (s : String) : ObExtends a (a.add s) :=
  ⟨⟨[], by simp [OB.add]⟩, ⟨s, Or.inl rfl⟩⟩

theorem ObExtends.flushR (a : OB) : ObExtends a a.flush :=
  ⟨⟨[a.current], rfl⟩, ⟨"", Or.inr (by simp [OB.flush])⟩⟩

theorem ObExtends.newLineR (iu : String) (a : OB) (lvl : Nat) :
    ObExtends a (fmtNewLine iu a lvl) :=
  ⟨⟨[a.current], rfl⟩, ⟨"", Or.inr (by simp [fmtNewLine])⟩⟩

/-! ## The layout engine's dispatch, factored

`formatBody` is the `elif` chain of `Formatter.format` (reached whenever
the writing position is at or before the indent floor); `format` always
reduces to it, to packing, or to a forced break followed by it. -/

def formatBody (iu : String) (maxW : Int) (x : FOS) (o : OB) (lvl : Nat) : OB × Bool :=
  match x with
  | .str s => (o.add s, false)
  | .flex h items t aon =>
    if (totalWidth (.flex h items t aon) : Int) ≤ maxW - o.current.length then
      (formatSingleLine (.flex h items t aon) o, false)
    else
      ((fmtNewLine iu
          (if items.isEmpty then o.add h
           else
             if aon then aonItems iu maxW items (fmtNewLine iu (o.add h) (lvl + 1)) (lvl + 1)
             else (seqItems iu maxW items (fmtNewLine iu (o.add h) (lvl + 1)) (lvl + 1) false).1)
          lvl).add t, true)

theorem fmtNewLine_pos (iu : String) (out : OB) (lvl : Nat) :
    (fmtNewLine iu out lvl).current.length = lvl * iu.length := by
  simp [fmtNewLine, indentStr_length]

theorem format_eq_body (iu : String) (maxW : Int) (x : FOS) (out : OB) (lvl : Nat) (fm : Bool) :
    format iu maxW x out lvl fm =
      if out.current.length > lvl * iu.length then
        if (fm : Prop) ∨ (totalWidth x : Int) + 2 > maxW - out.current.length then
          formatBody iu maxW x (fmtNewLine iu (out.add ",") lvl) lvl
        else (formatSingleLine x (out.add ", "), false)
      else formatBody iu maxW x out lvl := by
  cases x with
  | str s =>
    by_cases hA : out.current.length > lvl * iu.length
    · by_cases hB : (fm : Prop) ∨ (totalWidth (FOS.str s) : Int) + 2 > maxW - out.current.length
      · rw [format, if_neg (fun hh => hh.2 hB), if_pos hA, if_pos hA, if_pos hB, formatBody]
      · rw [format, if_pos ⟨hA, hB⟩, if_pos hA, if_neg hB]
    · rw [format, if_neg (fun hh => hA hh.1), if_neg hA, if_neg hA, formatBody]
  | flex h items t aon =>
    by_cases hA : out.current.length > lvl * iu.length
    · by_cases hB : (fm : Prop) ∨
          (totalWidth (FOS.flex h items t aon) : Int) + 2 > maxW - out.current.length
      · rw [format, if_neg (fun hh => hh.2 hB), if_pos hA, if_pos hA, if_pos hB, formatBody]
      · rw [format, if_pos ⟨hA, hB⟩, if_pos hA, if_neg hB]
    · rw [format, if_neg (fun hh => hA hh.1), if_neg hA, if_neg hA, formatBody]

theorem format_extends_of_body {iu : String} {maxW : Int} {x : FOS}
    (H : ∀ (o : OB) (lvl : Nat), ObExtends o (formatBody iu maxW x o lvl).1) :
    ∀ (out : OB) (lvl : Nat) (fm : Bool), ObExtends out (format iu maxW x out lvl fm).1 := by
  intro out lvl fm
  rw [format_eq_body]
  split_ifs with h1 h2
  · exact ((ObExtends.addR out ",").trans
      (ObExtends.newLineR iu (out.add ",") lvl)).trans (H _ _)
  · rw [formatSingleLine_eq]
    exact (ObExtends.addR out ", ").trans (ObExtends.addR _ _)
  · exact H out lvl

mutual

theorem formatBody_extends : ∀ (iu : String) (maxW : Int) (x : FOS) (o : OB) (lvl : Nat),
    ObExtends o (formatBody iu maxW x o lvl).1
  | iu, maxW, .str s, o, lvl => ObExtends.addR o s
  | iu, maxW, .flex h items t aon, o, lvl => by
    rw [formatBody]
    split_ifs with h1 h2 h3
    · rw [formatSingleLine_eq]
      exact ObExtends.addR o _
    · exact ((ObExtends.addR o h).trans (ObExtends.newLineR iu _ lvl)).trans (ObExtends.addR _ t)
    · exact (((ObExtends.addR o h).trans (ObExtends.newLineR iu _ (lvl + 1))).trans
        (aonItems_extends iu maxW items _ (lvl + 1))).trans
        ((ObExtends.newLineR iu _ lvl).trans (ObExtends.addR _ t))
    · exact (((ObExtends.addR o h).trans (ObExtends.newLineR iu _ (lvl + 1))).trans
        (seqItems_extends iu maxW items _ (lvl + 1) false)).trans
        ((ObExtends.newLineR iu _ lvl).trans (ObExtends.addR _ t))

theorem aonItems_extends : ∀ (iu : String) (maxW : Int) (l : List FOS) (out : OB) (lvl : Nat),
    ObExtends out (aonItems iu maxW l out lvl)
  | iu, maxW, [], out, lvl => ObExtends.me out
  | iu, maxW, y :: ys, out, lvl => by
    rw [aonItems]
    exact (format_extends_of_body (formatBody_extends iu maxW y) out lvl false).trans
      (aonItemsRest_extends iu maxW ys _ lvl)

theorem aonItemsRest_extends : ∀ (iu : String) (maxW : Int) (l : List FOS) (out : OB) (lvl : Nat),
    ObExtends out (aonItemsRest iu maxW l out lvl)
  | iu, maxW, [], out, lvl => ObExtends.me out
  | iu, maxW, y :: ys, out, lvl => by
    rw [aonItemsRest]
    exact (((ObExtends.addR out ",").trans (ObExtends.newLineR iu _ lvl)).trans
      (format_extends_of_body (formatBody_extends iu maxW y) _ lvl false)).trans
      (aonItemsRest_extends iu maxW ys _ lvl)

theorem seqItems_extends : ∀ (iu : String) (maxW : Int) (l : List FOS) (out : OB) (lvl : Nat)
    (fm : Bool), ObExtends out (seqItems iu maxW l out lvl fm).1
  | iu, maxW, [], out, lvl, fm => ObExtends.me out
  | iu, maxW, y :: ys, out, lvl, fm => by
    rw [seqItems]
    exact (format_extends_of_body (formatBody_extends iu maxW y) out lvl fm).trans
      (seqItems_extends iu maxW ys _ lvl _)

end

theorem format_extends (iu : String) (maxW : Int) (x : FOS) (out : OB) (lvl : Nat) (fm : Bool) :
    ObExtends out (format iu maxW x out lvl fm).1 :=
  format_extends_of_body (formatBody_extends iu maxW x) out lvl fm

/-! ## The width bound the engine actually guarantees -/

theorem lineBound_cons_head (iu : String) (maxW : Int) (y : FOS) (ys : List FOS) (lvl : Nat) :
    lineBound iu maxW y lvl ≤ lineBoundL iu maxW (y :: ys) lvl := by
  have h1 : heightF y ≤ heightL (y :: ys) := le_max_left _ _
  have h2 : maxTok y ≤ maxTokL (y :: ys) := le_max_left _ _
  have h3 : (lvl + heightF y) * iu.length + maxTok y ≤
      (lvl + heightL (y :: ys)) * iu.length + maxTokL (y :: ys) :=
    Nat.add_le_add (Nat.mul_le_mul_right _ (by omega)) h2
  exact Nat.add_le_add_right (max_le_max (le_refl _) h3) 1

theorem lineBoundL_cons_tail (iu : String) (maxW : Int) (y : FOS) (ys : List FOS) (lvl : Nat) :
    lineBoundL iu maxW ys lvl ≤ lineBoundL iu maxW (y :: ys) lvl := by
  have h1 : heightL ys ≤ heightL (y :: ys) := le_max_right _ _
  have h2 : maxTokL ys ≤ maxTokL (y :: ys) := le_max_right _ _
  have h3 : (lvl + heightL ys) * iu.length + maxTokL ys ≤
      (lvl + heightL (y :: ys)) * iu.length + maxTokL (y :: ys) :=
    Nat.add_le_add (Nat.mul_le_mul_right _ (by omega)) h2
  exact Nat.add_le_add_right (max_le_max (le_refl _) h3) 1

theorem lineBoundL_flex (iu : String) (maxW : Int) (h : String) (items : List FOS) (t : String)
    (aon : Bool) (lvl : Nat) :
    lineBoundL iu maxW items (lvl + 1) ≤ lineBound iu maxW (.flex h items t aon) lvl := by
  have h1 : lvl + 1 + heightL items = lvl + heightF (.flex h items t aon) := by
    simp [heightF]; omega
  have h2 : maxTokL items ≤ maxTok (.flex h items t aon) := le_max_right _ _
  have h3 : (lvl + 1 + heightL items) * iu.length + maxTokL items ≤
      (lvl + heightF (.flex h items t aon)) * iu.length + maxTok (.flex h items t aon) := by
    rw [h1]; exact Nat.add_le_add_left h2 _
  exact Nat.add_le_add_right (max_le_max (le_refl _) h3) 1

theorem lineBound_indent (iu : String) (maxW : Int) (x : FOS) (lvl : Nat) {C : Nat}
    (hlb : lineBound iu maxW x lvl ≤ C) : lvl * iu.length + 1 ≤ C := by
  have h1 : lvl * iu.length ≤ (lvl + heightF x) * iu.length := Nat.mul_le_mul_right _ (by omega)
  have h2 := le_max_right (maxW.toNat) ((lvl + heightF x) * iu.length + maxTok x)
  simp only [lineBound] at hlb
  omega

theorem lineBoundL_indent (iu : String) (maxW : Int) (l : List FOS) (lvl : Nat) {C : Nat}
    (hlb : lineBoundL iu maxW l lvl ≤ C) : lvl * iu.length + 1 ≤ C := by
  have h1 : lvl * iu.length ≤ (lvl + heightL l) * iu.length := Nat.mul_le_mul_right _ (by omega)
  have h2 := le_max_right (maxW.toNat) ((lvl + heightL l) * iu.length + maxTokL l)
  simp only [lineBoundL] at hlb
  omega

theorem lineBound_budget (iu : String) (maxW : Int) (x : FOS) (lvl : Nat) {C : Nat}
    (hlb : lineBound iu maxW x lvl ≤ C) : maxW.toNat + 1 ≤ C := by
  have := le_max_left (maxW.toNat) ((lvl + heightF x) * iu.length + maxTok x)
  simp only [lineBound] at hlb
  omega

theorem OBbound.commaNewLine {C : Nat} {out : OB} (iu : String) (lvl : Nat)
    (hb : OBbound C out) (hc : lvl * iu.length + 1 ≤ C) :
    OBbound C (fmtNewLine iu (out.add ",") lvl) := by
  constructor
  · intro L hL
    simp only [fmtNewLine, OB.add, List.mem_append, List.mem_singleton] at hL
    rcases hL with hL | rfl
    · exact hb.1 L hL
    · have h1 : ("," : String).length = 1 := rfl
      rw [String.length_append, h1]
      exact hb.2
  · simp only [fmtNewLine, indentStr_length]
    omega

theorem OBbound.plainNewLine {C : Nat} {out : OB} (iu : String) (lvl : Nat)
    (hb : OBbound C out) (hc : lvl * iu.length + 1 ≤ C) :
    OBbound C (fmtNewLine iu out lvl) := by
  constructor
  · intro L hL
    simp only [fmtNewLine, List.mem_append, List.mem_singleton] at hL
    rcases hL with hL | rfl
    · exact hb.1 L hL
    · have := hb.2
      omega
  · simp only [fmtNewLine, indentStr_length]
    omega

theorem format_bound_of_body {iu : String} {maxW : Int} {x : FOS}
    (H : ∀ (o : OB) (lvl : Nat) (C : Nat), OBbound C o →
      o.current.length ≤ lvl * iu.length → lineBound iu maxW x lvl ≤ C →
      OBbound C (formatBody iu maxW x o lvl).1) :
    ∀ (out : OB) (lvl : Nat) (fm : Bool) (C : Nat), OBbound C out →
      lineBound iu maxW x lvl ≤ C → OBbound C (format iu maxW x out lvl fm).1 := by
  intro out lvl fm C hb hlb
  rw [format_eq_body]
  split_ifs with h1 h2
  · refine H _ lvl C ?_ ?_ hlb
    · exact OBbound.commaNewLine iu lvl hb (lineBound_indent iu maxW x lvl hlb)
    · rw [fmtNewLine_pos]
  · rw [formatSingleLine_eq, OB.add_add]
    push_neg at h2
    have hw := h2.2
    constructor
    · exact hb.1
    · show (out.add (", " ++ slString x)).current.length + 1 ≤ C
      have h3 : (", " : String).length = 2 := rfl
      simp only [OB.add, String.length_append, slString_length, h3]
      have h4 : out.current.length + 2 + totalWidth x ≤ maxW.toNat := by omega
      have h5 := lineBound_budget iu maxW x lvl hlb
      omega
  · exact H out lvl C hb (Nat.le_of_not_lt h1) hlb

theorem OBbound.addTok {C : Nat} {out : OB} (s : String) (hb : OBbound C out)
    (hlen : out.current.length + s.length + 1 ≤ C) : OBbound C (out.add s) := by
  constructor
  · exact hb.1
  · simp only [OB.add, String.length_append]
    omega

theorem OBbound.closeBrk {C : Nat} {o2 : OB} (iu t : String) (lvl : Nat) (hb2 : OBbound C o2)
    (hc : lvl * iu.length + t.length + 1 ≤ C) : OBbound C ((fmtNewLine iu o2 lvl).add t) := by
  constructor
  · intro L hL
    simp only [OB.add, fmtNewLine, List.mem_append, List.mem_singleton] at hL
    rcases hL with hL | rfl
    · exact hb2.1 L hL
    · have := hb2.2
      omega
  · simp only [OB.add, fmtNewLine, String.length_append, indentStr_length]
    omega

theorem OBbound.openBrk {C : Nat} {o : OB} (iu h : String) (lvl2 : Nat) (hb : OBbound C o)
    (hline : o.current.length + h.length ≤ C) (hcur : lvl2 * iu.length + 1 ≤ C) :
    OBbound C (fmtNewLine iu (o.add h) lvl2) := by
  constructor
  · intro L hL
    simp only [OB.add, fmtNewLine, List.mem_append, List.mem_singleton] at hL
    rcases hL with hL | rfl
    · exact hb.1 L hL
    · simp only [String.length_append]
      omega
  · simp only [fmtNewLine, indentStr_length]
    omega

mutual

theorem formatBody_bound : ∀ (iu : String) (maxW : Int) (x : FOS) (o : OB) (lvl C : Nat),
    OBbound C o → o.current.length ≤ lvl * iu.length → lineBound iu maxW x lvl ≤ C →
    OBbound C (formatBody iu maxW x o lvl).1
  | iu, maxW, .str s, o, lvl, C, hb, hpos, hlb => by
    constructor
    · exact hb.1
    · show (o.add s).current.length + 1 ≤ C
      simp only [OB.add, String.length_append]
      have h1 : (lvl + heightF (FOS.str s)) * iu.length = lvl * iu.length := by
        simp [heightF]
      have h2 := le_max_right (maxW.toNat)
        ((lvl + heightF (FOS.str s)) * iu.length + maxTok (FOS.str s))
      have h3 : maxTok (FOS.str s) = s.length := rfl
      simp only [lineBound] at hlb
      omega
  | iu, maxW, .flex h items t aon, o, lvl, C, hb, hpos, hlb => by
    have hWmax := le_max_right (maxW.toNat)
      ((lvl + heightF (.flex h items t aon)) * iu.length + maxTok (.flex h items t aon))
    have hlb' := hlb
    simp only [lineBound] at hlb'
    have hhtok : h.length ≤ maxTok (.flex h items t aon) :=
      le_trans (le_max_left _ _) (le_max_left _ _)
    have httok : t.length ≤ maxTok (.flex h items t aon) :=
      le_trans (le_max_right _ _) (le_max_left _ _)
    have hlvlu : lvl * iu.length ≤ (lvl + heightF (.flex h items t aon)) * iu.length :=
      Nat.mul_le_mul_right _ (by omega)
    have hlvl1u : (lvl + 1) * iu.length ≤ (lvl + heightF (.flex h items t aon)) * iu.length := by
      refine Nat.mul_le_mul_right _ ?_
      have : 1 ≤ heightF (.flex h items t aon) := by
        simp [heightF]
      omega
    rw [formatBody]
    split_ifs with hfits hemp haon
    · rw [formatSingleLine_eq]
      constructor
      · exact hb.1
      · show (o.add (slString (.flex h items t aon))).current.length + 1 ≤ C
        simp only [OB.add, String.length_append, slString_length]
        have h5 := lineBound_budget iu maxW (.flex h items t aon) lvl hlb
        omega
    · exact OBbound.closeBrk iu t lvl
        (OBbound.addTok h hb (by omega)) (by omega)
    · refine OBbound.closeBrk iu t lvl ?_ (by omega)
      refine aonItems_bound iu maxW items _ (lvl + 1) C ?_
        (le_trans (lineBoundL_flex iu maxW h items t aon lvl) hlb)
      exact OBbound.openBrk iu h (lvl + 1) hb (by omega) (by omega)
    · refine OBbound.closeBrk iu t lvl ?_ (by omega)
      refine seqItems_bound iu maxW items _ (lvl + 1) false C ?_
        (le_trans (lineBoundL_flex iu maxW h items t aon lvl) hlb)
      exact OBbound.openBrk iu h (lvl + 1) hb (by omega) (by omega)

theorem aonItems_bound : ∀ (iu : String) (maxW : Int) (l : List FOS) (out : OB) (lvl C : Nat),
    OBbound C out → lineBoundL iu maxW l lvl ≤ C → OBbound C (aonItems iu maxW l out lvl)
  | iu, maxW, [], out, lvl, C, hb, _ => by rw [aonItems]; exact hb
  | iu, maxW, y :: ys, out, lvl, C, hb, hlb => by
    rw [aonItems]
    refine aonItemsRest_bound iu maxW ys _ lvl C ?_
      (le_trans (lineBoundL_cons_tail iu maxW y ys lvl) hlb)
    exact format_bound_of_body (formatBody_bound iu maxW y) out lvl false C hb
      (le_trans (lineBound_cons_head iu maxW y ys lvl) hlb)

theorem aonItemsRest_bound : ∀ (iu : String) (maxW : Int) (l : List FOS) (out : OB) (lvl C : Nat),
    OBbound C out → lineBoundL iu maxW l lvl ≤ C → OBbound C (aonItemsRest iu maxW l out lvl)
  | iu, maxW, [], out, lvl, C, hb, _ => by rw [aonItemsRest]; exact hb
  | iu, maxW, y :: ys, out, lvl, C, hb, hlb => by
    rw [aonItemsRest]
    refine aonItemsRest_bound iu maxW ys _ lvl C ?_
      (le_trans (lineBoundL_cons_tail iu maxW y ys lvl) hlb)
    refine format_bound_of_body (formatBody_bound iu maxW y) _ lvl false C ?_
      (le_trans (lineBound_cons_head iu maxW y ys lvl) hlb)
    exact OBbound.commaNewLine iu lvl hb (lineBoundL_indent iu maxW (y :: ys) lvl hlb)

theorem seqItems_bound : ∀ (iu : String) (maxW : Int) (l : List FOS) (out : OB) (lvl : Nat)
    (fm : Bool) (C : Nat),
    OBbound C out → lineBoundL iu maxW l lvl ≤ C → OBbound C (seqItems iu maxW l out lvl fm).1
  | iu, maxW, [], out, lvl, fm, C, hb, _ => by rw [seqItems]; exact hb
  | iu, maxW, y :: ys, out, lvl, fm, C, hb, hlb => by
    rw [seqItems]
    refine seqItems_bound iu maxW ys _ lvl _ C ?_
      (le_trans (lineBoundL_cons_tail iu maxW y ys lvl) hlb)
    exact format_bound_of_body (formatBody_bound iu maxW y) out lvl fm C hb
      (le_trans (lineBound_cons_head iu maxW y ys lvl) hlb)

end

theorem format_bound (iu : String) (maxW : Int) (x : FOS) (out : OB) (lvl : Nat) (fm : Bool)
    (C : Nat) (hb : OBbound C out) (hlb : lineBound iu maxW x lvl ≤ C) :
    OBbound C (format iu maxW x out lvl fm).1 :=
  format_bound_of_body (formatBody_bound iu maxW x) out lvl fm C hb hlb

theorem topFormatLines_bound (iu : String) (maxW : Int) (x : FOS) :
    ∀ L ∈ topFormatLines iu maxW x, L.length ≤ lineBound iu maxW x 0 := by
  intro L hL
  have hb0 : OBbound (lineBound iu maxW x 0) OB.empty := by
    constructor
    · intro L hL
      simp [OB.empty] at hL
    · simp only [OB.empty]
      have : (("" : String)).length = 0 := rfl
      simp only [lineBound]
      omega
  have hres := format_bound iu maxW x OB.empty 0 false _ hb0 (le_refl _)
  simp only [topFormatLines, OB.flush, List.mem_append, List.mem_singleton] at hL
  rcases hL with hL | rfl
  · exact hres.1 L hL
  · have := hres.2
    omega

/-! ## Termination of the source layout recursion: the literal fueled
transcription agrees with the structural one -/

theorem fuelNeedF_ge (x : FOS) : 2 ≤ fuelNeedF x := by
  cases x <;> simp [fuelNeedF]

theorem formatF_succ (iu : String) (maxW : Int) (fuel : Nat) (x : FOS) (out : OB) (lvl : Nat)
    (fm : Bool) :
    formatF iu maxW (fuel + 1) x out lvl fm =
      if out.current.length > lvl * iu.length then
        if fm ∨ (totalWidth x : Int) + 2 > maxW - out.current.length then
          formatF iu maxW fuel x (fmtNewLine iu (out.add ",") lvl) lvl false
        else
          some (formatSingleLine x (out.add ", "), false)
      else
        match x with
        | .str s => some (out.add s, false)
        | .flex h items t aon =>
          if (totalWidth (.flex h items t aon) : Int) ≤ maxW - out.current.length then
            some (formatSingleLine (.flex h items t aon) out, false)
          else
            let o1 := out.add h
            match
              (if items.isEmpty then some o1
               else
                 let o3 := fmtNewLine iu o1 (lvl + 1)
                 if aon then aonItemsF iu (formatF iu maxW fuel) items o3 (lvl + 1)
                 else (seqItemsF (formatF iu maxW fuel) items o3 (lvl + 1) false).map Prod.fst) with
            | none => none
            | some o2 => some ((fmtNewLine iu o2 lvl).add t, true) := rfl

theorem seqItemsF_spec {iu : String} {maxW : Int} {g : Nat}
    (H : ∀ (y : FOS) (out : OB) (lvl : Nat) (fm : Bool), fuelNeedF y ≤ g →
      formatF iu maxW g y out lvl fm = some (format iu maxW y out lvl fm)) :
    ∀ (l : List FOS) (out : OB) (lvl : Nat) (fm : Bool), fuelNeedL l ≤ g →
      seqItemsF (formatF iu maxW g) l out lvl fm = some (seqItems iu maxW l out lvl fm)
  | [], out, lvl, fm, _ => by simp [seqItemsF, seqItems]
  | y :: ys, out, lvl, fm, hl => by
    simp only [fuelNeedL] at hl
    obtain ⟨h1, h2⟩ := max_le_iff.mp hl
    rw [seqItems]
    simp only [seqItemsF, H y out lvl fm h1, Option.bind_eq_bind, Option.some_bind]
    exact seqItemsF_spec H ys _ lvl _ h2

theorem aonItemsRestF_spec {iu : String} {maxW : Int} {g : Nat}
    (H : ∀ (y : FOS) (out : OB) (lvl : Nat) (fm : Bool), fuelNeedF y ≤ g →
      formatF iu maxW g y out lvl fm = some (format iu maxW y out lvl fm)) :
    ∀ (l : List FOS) (out : OB) (lvl : Nat), fuelNeedL l ≤ g →
      aonItemsRestF iu (formatF iu maxW g) l out lvl = some (aonItemsRest iu maxW l out lvl)
  | [], out, lvl, _ => by simp [aonItemsRestF, aonItemsRest]
  | y :: ys, out, lvl, hl => by
    simp only [fuelNeedL] at hl
    obtain ⟨h1, h2⟩ := max_le_iff.mp hl
    rw [aonItemsRest]
    simp only [aonItemsRestF, H y _ lvl false h1, Option.bind_eq_bind, Option.some_bind]
    exact aonItemsRestF_spec H ys _ lvl h2

theorem aonItemsF_spec {iu : String} {maxW : Int} {g : Nat}
    (H : ∀ (y : FOS) (out : OB) (lvl : Nat) (fm : Bool), fuelNeedF y ≤ g →
      formatF iu maxW g y out lvl fm = some (format iu maxW y out lvl fm)) :
    ∀ (l : List FOS) (out : OB) (lvl : Nat), fuelNeedL l ≤ g →
      aonItemsF iu (formatF iu maxW g) l out lvl = some (aonItems iu maxW l out lvl) := by
  intro l out lvl hl
  match l with
  | [] => simp [aonItemsF, aonItems]
  | y :: ys =>
    simp only [fuelNeedL] at hl
    obtain ⟨h1, h2⟩ := max_le_iff.mp hl
    rw [aonItems]
    simp only [aonItemsF, H y out lvl false h1, Option.bind_eq_bind, Option.some_bind]
    exact aonItemsRestF_spec H ys _ lvl h2

mutual

theorem formatF_spec (iu : String) (maxW : Int) :
    ∀ (fuel : Nat) (x : FOS) (out : OB) (lvl : Nat) (fm : Bool), fuelNeedF x ≤ fuel →
      formatF iu maxW fuel x out lvl fm = some (format iu maxW x out lvl fm)
  | 0, x, _, _, _, hf => absurd (le_trans (fuelNeedF_ge x) hf) (by omega)
  | fuel + 1, x, out, lvl, fm, hf => by
    rw [format_eq_body, formatF_succ]
    by_cases h1 : out.current.length > lvl * iu.length
    · by_cases h2 : (fm : Prop) ∨ (totalWidth x : Int) + 2 > maxW - out.current.length
      · simp only [if_pos h1, if_pos h2]
        exact formatF_body_spec iu maxW fuel x _ lvl false (by omega)
          (by rw [fmtNewLine_pos])
      · simp only [if_pos h1, if_neg h2]
    · simp only [if_neg h1]
      exact formatF_body_spec2 iu maxW fuel x out lvl (by omega) (Nat.le_of_not_lt h1)
  termination_by fuel => 3 * fuel + 2

theorem formatF_body_spec2 (iu : String) (maxW : Int) :
    ∀ (fuel : Nat) (x : FOS) (out : OB) (lvl : Nat), fuelNeedF x ≤ fuel + 2 →
      out.current.length ≤ lvl * iu.length →
      (match x with
        | .str s => some (out.add s, false)
        | .flex h items t aon =>
          if (totalWidth (.flex h items t aon) : Int) ≤ maxW - out.current.length then
            some (formatSingleLine (.flex h items t aon) out, false)
          else
            let o1 := out.add h
            match
              (if items.isEmpty then some o1
               else
                 let o3 := fmtNewLine iu o1 (lvl + 1)
                 if aon then aonItemsF iu (formatF iu maxW fuel) items o3 (lvl + 1)
                 else (seqItemsF (formatF iu maxW fuel) items o3 (lvl + 1) false).map Prod.fst) with
            | none => none
            | some o2 => some ((fmtNewLine iu o2 lvl).add t, true) : Option (OB × Bool)) =
        some (formatBody iu maxW x out lvl)
  | fuel, .str s, out, lvl, hf, hpos => by rw [formatBody]
  | fuel, .flex h items t aon, out, lvl, hf, hpos => by
    have hneed : fuelNeedL items ≤ fuel := by
      simp only [fuelNeedF] at hf
      omega
    have H : ∀ (y : FOS) (out : OB) (lvl : Nat) (fm : Bool), fuelNeedF y ≤ fuel →
        formatF iu maxW fuel y out lvl fm = some (format iu maxW y out lvl fm) :=
      fun y out lvl fm hy => formatF_spec iu maxW fuel y out lvl fm hy
    rw [formatBody]
    by_cases hfits : (totalWidth (.flex h items t aon) : Int) ≤ maxW - out.current.length
    · simp only [if_pos hfits]
    · simp only [if_neg hfits]
      by_cases hemp : items.isEmpty
      · simp only [if_pos hemp]
      · simp only [if_neg hemp]
        by_cases haon : aon
        · rw [if_pos haon, if_pos haon,
            aonItemsF_spec H items (fmtNewLine iu (out.add h) (lvl + 1)) (lvl + 1) hneed]
        · rw [if_neg haon, if_neg haon,
            seqItemsF_spec H items (fmtNewLine iu (out.add h) (lvl + 1)) (lvl + 1) false hneed]
          rfl
  termination_by fuel => 3 * fuel + 3

theorem formatF_body_spec (iu : String) (maxW : Int) :
    ∀ (g : Nat) (x : FOS) (out : OB) (lvl : Nat) (fm : Bool), fuelNeedF x ≤ g + 1 →
      out.current.length ≤ lvl * iu.length →
      formatF iu maxW g x out lvl fm = some (formatBody iu maxW x out lvl)
  | 0, x, _, _, _, hf, _ => absurd (le_trans (fuelNeedF_ge x) hf) (by omega)
  | g + 1, x, out, lvl, fm, hf, hpos => by
    rw [formatF_succ, if_neg (Nat.not_lt.mpr hpos)]
    exact formatF_body_spec2 iu maxW g x out lvl (by omega) hpos
  termination_by g => 3 * g + 4

end

/-- The fuel `fuelNeedF x` always suffices, whatever the width budget
(also zero or negative), the level, and the builder state. -/
theorem formatF_total (iu : String) (maxW : Int) (x : FOS) (out : OB) (lvl : Nat) (fm : Bool) :
    formatF iu maxW (fuelNeedF x) x out lvl fm = some (format iu maxW x out lvl fm) :=
  formatF_spec iu maxW (fuelNeedF x) x out lvl fm (le_refl _)

/-! ## The value compiler: fuel sufficiency and `_processing` restoration -/

theorem make_succ (env : Env) (heap : Heap) (fuel : Nat) (s : Finset Ref) (r : Ref) :
    make env heap (fuel + 1) s r =
      match (heap r).primRepr with
      | some rep => some (.str rep, s)
      | none =>
        if r ∈ s then some (.str cycleSentinel, s)
        else
          let s1 := insert r s
          let body : Option (FOS × Finset Ref) :=
            match findPrettifier env.prettifiers r with
            | some tr => make env heap fuel s1 (tr r)
            | none =>
              match env.toPretty r with
              | some r2 => make env heap fuel s1 r2
              | none =>
                match heap r with
                | .prim rep => some (.str rep, s1)
                | .symbol nm => some (.str nm, s1)
                | .record nm fs op cl aon => do
                    let ri ← seqCompile (make env heap fuel) s1 fs
                    some (.flex (nm ++ op) ri.1 cl (aon || childAon ri.1), ri.2)
                | .field nm v sep => do
                    let ri ← make env heap fuel s1 v
                    some (combineField (nm ++ sep) ri.1, ri.2)
                | .tup is => do
                    let ri ← seqCompile (make env heap fuel) s1 is
                    some (.flex "(" ri.1 ")" (childAon ri.1), ri.2)
                | .lst is => do
                    let ri ← seqCompile (make env heap fuel) s1 is
                    some (.flex "[" ri.1 "]" (childAon ri.1), ri.2)
                | .sett is => do
                    let ri ← seqCompile (make env heap fuel) s1 is
                    some (.flex "set(" ri.1 ")" (childAon ri.1), ri.2)
                | .dict es => do
                    let ri ← dictCompile (make env heap fuel) s1 es
                    some (.flex "\x7b" ri.1 "\x7d" true, ri.2)
                | .other rep => some (.str rep, s1)
          match body with
          | none => none
          | some res => some (res.1, res.2.erase r) := rfl

theorem seqCompile_spec {mk : Finset Ref → Ref → Option (FOS × Finset Ref)} {s : Finset Ref} :
    ∀ cs : List Ref, (∀ c ∈ cs, ∃ res, mk s c = some (res, s)) →
      ∃ items, seqCompile mk s cs = some (items, s) ∧
        List.Forall₂ (fun c y => mk s c = some (y, s)) cs items
  | [], _ => ⟨[], rfl, List.Forall₂.nil⟩
  | c :: cs, H => by
    obtain ⟨res, hres⟩ := H c (List.mem_cons_self c cs)
    obtain ⟨items, hit, hfa⟩ := seqCompile_spec cs (fun c' hc' => H c' (List.mem_cons_of_mem c hc'))
    exact ⟨res :: items, by simp [seqCompile, hres, hit], List.Forall₂.cons hres hfa⟩

theorem dictCompile_spec {mk : Finset Ref → Ref → Option (FOS × Finset Ref)} {s : Finset Ref} :
    ∀ es : List (String × Ref), (∀ kv ∈ es, ∃ res, mk s kv.2 = some (res, s)) →
      ∃ items, dictCompile mk s es = some (items, s) ∧
        List.Forall₂ (fun (kv : String × Ref) y =>
          ∃ inner, mk s kv.2 = some (inner, s) ∧ y = combineField (kv.1 ++ ": ") inner) es items
  | [], _ => ⟨[], rfl, List.Forall₂.nil⟩
  | kv :: es, H => by
    obtain ⟨res, hres⟩ := H kv (List.mem_cons_self kv es)
    obtain ⟨items, hit, hfa⟩ := dictCompile_spec es (fun kv' hk' => H kv' (List.mem_cons_of_mem kv hk'))
    exact ⟨combineField (kv.1 ++ ": ") res :: items, by simp [dictCompile, hres, hit],
      List.Forall₂.cons ⟨res, hres, rfl⟩ hfa⟩

theorem sdiff_card_insert {S s : Finset Ref} {r : Ref} (hrS : r ∈ S) (hrs : r ∉ s) :
    (S \ insert r s).card < (S \ s).card := by
  apply Finset.card_lt_card
  constructor
  · intro x hx
    simp only [Finset.mem_sdiff, Finset.mem_insert] at hx ⊢
    exact ⟨hx.1, fun h => hx.2 (Or.inr h)⟩
  · intro hsub
    have hr : r ∈ S \ s := Finset.mem_sdiff.mpr ⟨hrS, hrs⟩
    have := hsub hr
    simp [Finset.mem_sdiff] at this

theorem make_spec (env : Env) (heap : Heap) (S : Finset Ref) (hS : NonPrimSupport S heap) :
    ∀ (fuel : Nat) (s : Finset Ref) (r : Ref), (S \ s).card < fuel →
      ∃ res, make env heap fuel s r = some (res, s)
  | 0, _, _, hcard => absurd hcard (by omega)
  | fuel + 1, s, r, hcard => by
    rw [make_succ]
    cases hpr : (heap r).primRepr with
    | some rep => exact ⟨.str rep, rfl⟩
    | none =>
      by_cases hr : r ∈ s
      · exact ⟨.str cycleSentinel, by simp [hr]⟩
      · have hrS : r ∈ S := hS r hpr
        have hcard1 : (S \ insert r s).card < fuel := by
          have := sdiff_card_insert hrS hr
          omega
        have H : ∀ c : Ref, ∃ res, make env heap fuel (insert r s) c = some (res, insert r s) :=
          fun c => make_spec env heap S hS fuel (insert r s) c hcard1
        have herase : (insert r s).erase r = s := Finset.erase_insert hr
        simp only [if_neg hr]
        cases hfp : findPrettifier env.prettifiers r with
        | some tr =>
          obtain ⟨res, hres⟩ := H (tr r)
          exact ⟨res, by simp [hres, herase]⟩
        | none =>
          cases htp : env.toPretty r with
          | some r2 =>
            obtain ⟨res, hres⟩ := H r2
            exact ⟨res, by simp [hres, herase]⟩
          | none =>
            cases hn : heap r with
            | prim rep => exact ⟨.str rep, by simp [herase]⟩
            | symbol nm => exact ⟨.str nm, by simp [herase]⟩
            | record nm fs op cl aon =>
              obtain ⟨items, hit, _⟩ := seqCompile_spec fs (fun c _ => H c)
              exact ⟨.flex (nm ++ op) items cl (aon || childAon items), by simp [hit, herase]⟩
            | field nm v sep =>
              obtain ⟨inner, hi⟩ := H v
              exact ⟨combineField (nm ++ sep) inner, by simp [hi, herase]⟩
            | tup is =>
              obtain ⟨items, hit, _⟩ := seqCompile_spec is (fun c _ => H c)
              exact ⟨.flex "(" items ")" (childAon items), by simp [hit, herase]⟩
            | lst is =>
              obtain ⟨items, hit, _⟩ := seqCompile_spec is (fun c _ => H c)
              exact ⟨.flex "[" items "]" (childAon items), by simp [hit, herase]⟩
            | sett is =>
              obtain ⟨items, hit, _⟩ := seqCompile_spec is (fun c _ => H c)
              exact ⟨.flex "set(" items ")" (childAon items), by simp [hit, herase]⟩
            | dict es =>
              obtain ⟨items, hit, _⟩ := dictCompile_spec es (fun kv _ => H kv.2)
              exact ⟨.flex "\x7b" items "\x7d" true, by simp [hit, herase]⟩
            | other rep => exact ⟨.str rep, by simp [herase]⟩

theorem make_restores (env : Env) (heap : Heap) (S : Finset Ref) (hS : NonPrimSupport S heap)
    (fuel : Nat) (s : Finset Ref) (r : Ref) (res : FOS) (s2 : Finset Ref)
    (hcard : (S \ s).card < fuel) (h : make env heap fuel s r = some (res, s2)) : s2 = s := by
  obtain ⟨res2, h2⟩ := make_spec env heap S hS fuel s r hcard
  rw [h] at h2
  exact (Prod.mk.injEq _ _ _ _ ▸ (Option.some.injEq _ _ ▸ h2)).2

/-! ## Reaching the cycle check: the sentinel ends up in the compiled
tree -/

theorem childRefs_nonPrim {n : PNode} {c : Ref} (hc : c ∈ childRefs n) : n.primRepr = none := by
  cases n <;> simp_all [childRefs, PNode.primRepr]

theorem forall2_mem_left {α β : Type} {R : α → β → Prop} :
    ∀ {l1 : List α} {l2 : List β}, List.Forall₂ R l1 l2 → ∀ {a : α}, a ∈ l1 →
      ∃ b, b ∈ l2 ∧ R a b := by
  intro l1 l2 h
  induction h with
  | nil => intro a ha; simp at ha
  | cons hR hFa ih =>
    intro a ha
    rcases List.mem_cons.mp ha with rfl | ha2
    · exact ⟨_, List.mem_cons_self _ _, hR⟩
    · obtain ⟨b, hb, hRb⟩ := ih ha2
      exact ⟨b, List.mem_cons_of_mem _ hb, hRb⟩

theorem hasCycMarkL_of_mem : ∀ {l : List FOS} {y : FOS}, y ∈ l → hasCycMark y → hasCycMarkL l
  | z :: zs, y, hy, hm => by
    rcases List.mem_cons.mp hy with rfl | hy2
    · exact Or.inl hm
    · exact Or.inr (hasCycMarkL_of_mem hy2 hm)

theorem suffix_append_left {l l2 : List Char} (l1 : List Char) (h : l <:+ l2) :
    l <:+ l1 ++ l2 := by
  obtain ⟨w, hw⟩ := h
  exact ⟨l1 ++ w, by rw [List.append_assoc, hw]⟩

theorem combineField_mark (hd : String) {inner : FOS} (h : hasCycMark inner) :
    hasCycMark (combineField hd inner) := by
  cases inner with
  | str s =>
    simp only [combineField, hasCycMark, String.data_append] at h ⊢
    exact suffix_append_left hd.data h
  | flex h2 items t2 a => exact h

theorem sentinel_mark : hasCycMark (.str cycleSentinel) := by
  simp only [hasCycMark]
  exact List.suffix_refl _

theorem emptyEnv_noPrettifier (r : Ref) : findPrettifier emptyEnv.prettifiers r = none := rfl

theorem emptyEnv_noToPretty (r : Ref) : emptyEnv.toPretty r = none := rfl

theorem make_child_embed (heap : Heap) (fuel : Nat) {s : Finset Ref} {r c : Ref} {res : FOS}
    {sf : Finset Ref} (hr : r ∉ s) (hc : c ∈ childRefs (heap r))
    (H : ∀ c' : Ref, ∃ r2, make emptyEnv heap fuel (insert r s) c' = some (r2, insert r s))
    (hmk : make emptyEnv heap (fuel + 1) s r = some (res, sf)) :
    ∃ resc, make emptyEnv heap fuel (insert r s) c = some (resc, insert r s) ∧
      (hasCycMark resc → hasCycMark res) := by
  have hnp := childRefs_nonPrim hc
  rw [make_succ] at hmk
  cases hn : heap r with
  | prim rep => rw [hn] at hnp; simp [PNode.primRepr] at hnp
  | symbol nm => rw [hn] at hc; simp [childRefs] at hc
  | other rep => rw [hn] at hc; simp [childRefs] at hc
  | record nm fs op cl aon =>
    rw [hn] at hc hmk
    simp only [childRefs] at hc
    obtain ⟨items, hit, hfa⟩ := seqCompile_spec fs (fun c' _ => H c')
    simp only [PNode.primRepr, if_neg hr, emptyEnv_noPrettifier, emptyEnv_noToPretty, hit,
      Option.bind_eq_bind,
      Option.some_bind, Option.some.injEq, Prod.mk.injEq] at hmk
    obtain ⟨y, hy_mem, hy⟩ := forall2_mem_left hfa hc
    refine ⟨y, hy, fun hm => ?_⟩
    rw [← hmk.1]
    exact hasCycMarkL_of_mem hy_mem hm
  | field nm v sep =>
    rw [hn] at hc hmk
    simp only [childRefs, List.mem_singleton] at hc
    subst hc
    obtain ⟨inner, hi⟩ := H c
    simp only [PNode.primRepr, if_neg hr, emptyEnv_noPrettifier, emptyEnv_noToPretty, hi,
      Option.bind_eq_bind,
      Option.some_bind, Option.some.injEq, Prod.mk.injEq] at hmk
    refine ⟨inner, hi, fun hm => ?_⟩
    rw [← hmk.1]
    exact combineField_mark (nm ++ sep) hm
  | tup is =>
    rw [hn] at hc hmk
    simp only [childRefs] at hc
    obtain ⟨items, hit, hfa⟩ := seqCompile_spec is (fun c' _ => H c')
    simp only [PNode.primRepr, if_neg hr, emptyEnv_noPrettifier, emptyEnv_noToPretty, hit,
      Option.bind_eq_bind,
      Option.some_bind, Option.some.injEq, Prod.mk.injEq] at hmk
    obtain ⟨y, hy_mem, hy⟩ := forall2_mem_left hfa hc
    refine ⟨y, hy, fun hm => ?_⟩
    rw [← hmk.1]
    exact hasCycMarkL_of_mem hy_mem hm
  | lst is =>
    rw [hn] at hc hmk
    simp only [childRefs] at hc
    obtain ⟨items, hit, hfa⟩ := seqCompile_spec is (fun c' _ => H c')
    simp only [PNode.primRepr, if_neg hr, emptyEnv_noPrettifier, emptyEnv_noToPretty, hit,
      Option.bind_eq_bind,
      Option.some_bind, Option.some.injEq, Prod.mk.injEq] at hmk
    obtain ⟨y, hy_mem, hy⟩ := forall2_mem_left hfa hc
    refine ⟨y, hy, fun hm => ?_⟩
    rw [← hmk.1]
    exact hasCycMarkL_of_mem hy_mem hm
  | sett is =>
    rw [hn] at hc hmk
    simp only [childRefs] at hc
    obtain ⟨items, hit, hfa⟩ := seqCompile_spec is (fun c' _ => H c')
    simp only [PNode.primRepr, if_neg hr, emptyEnv_noPrettifier, emptyEnv_noToPretty, hit,
      Option.bind_eq_bind,
      Option.some_bind, Option.some.injEq, Prod.mk.injEq] at hmk
    obtain ⟨y, hy_mem, hy⟩ := forall2_mem_left hfa hc
    refine ⟨y, hy, fun hm => ?_⟩
    rw [← hmk.1]
    exact hasCycMarkL_of_mem hy_mem hm
  | dict es =>
    rw [hn] at hc hmk
    simp only [childRefs, List.mem_map] at hc
    obtain ⟨kv, hkv_mem, hkv⟩ := hc
    obtain ⟨items, hit, hfa⟩ := dictCompile_spec es (fun kv' _ => H kv'.2)
    simp only [PNode.primRepr, if_neg hr, emptyEnv_noPrettifier, emptyEnv_noToPretty, hit,
      Option.bind_eq_bind,
      Option.some_bind, Option.some.injEq, Prod.mk.injEq] at hmk
    obtain ⟨y, hy_mem, inner, hinner, hyc⟩ := forall2_mem_left hfa hkv_mem
    rw [hkv] at hinner
    refine ⟨inner, hinner, fun hm => ?_⟩
    rw [← hmk.1]
    refine hasCycMarkL_of_mem hy_mem ?_
    rw [hyc]
    exact combineField_mark (kv.1 ++ ": ") hm

theorem willCycle_of_reach (heap : Heap) (S : Finset Ref) (hS : NonPrimSupport S heap) :
    ∀ (n : Nat) (s : Finset Ref) (r : Ref), (S \ s).card ≤ n → r ∉ s →
      (∃ v, Reaches heap r v ∧ CycleAt heap v) → WillCycle heap s r
  | n, s, r, hcard, hr, ⟨v, hreach, hcyc⟩ => by
    have hstep : ∃ c ∈ childRefs (heap r), Reaches heap c v := by
      cases hreach with
      | refl => exact hcyc
      | head hc hcv => exact ⟨_, hc, hcv⟩
    obtain ⟨c, hc, hcv⟩ := hstep
    by_cases hcin : c ∈ insert r s
    · exact WillCycle.hit hr hc hcin
    · have hrS : r ∈ S := hS r (childRefs_nonPrim hc)
      have hlt := sdiff_card_insert hrS hr
      have hpos : 0 < (S \ s).card :=
        Finset.card_pos.mpr ⟨r, Finset.mem_sdiff.mpr ⟨hrS, hr⟩⟩
      match n, hcard with
      | 0, hcard => exact absurd hpos (by omega)
      | n + 1, hcard =>
        exact WillCycle.step hr hc
          (willCycle_of_reach heap S hS n (insert r s) c (by omega) hcin ⟨v, hcv, hcyc⟩)

theorem make_cycle_mark (heap : Heap) (S : Finset Ref) (hS : NonPrimSupport S heap) :
    ∀ (fuel : Nat) (s : Finset Ref) (r : Ref) (res : FOS) (sf : Finset Ref),
      WillCycle heap s r → (∀ x ∈ s, (heap x).primRepr = none) → (S \ s).card < fuel →
      make emptyEnv heap fuel s r = some (res, sf) → hasCycMark res
  | 0, _, _, _, _, _, _, hcard, _ => absurd hcard (by omega)
  | fuel + 1, s, r, res, sf, hwc, hsp, hcard, hmk => by
    cases hwc with
    | @hit _ _ c hr hc hcin =>
      have hrS : r ∈ S := hS r (childRefs_nonPrim hc)
      have hcard1 : (S \ insert r s).card < fuel := by
        have := sdiff_card_insert hrS hr
        omega
      have H : ∀ c' : Ref, ∃ r2, make emptyEnv heap fuel (insert r s) c' = some (r2, insert r s) :=
        fun c' => make_spec emptyEnv heap S hS fuel (insert r s) c' hcard1
      obtain ⟨resc, hresc, hembed⟩ := make_child_embed heap fuel hr hc H hmk
      have hcnp : (heap c).primRepr = none := by
        rcases Finset.mem_insert.mp hcin with rfl | hcs
        · exact childRefs_nonPrim hc
        · exact hsp c hcs
      match fuel, hcard1 with
      | g + 1, _ =>
        rw [make_succ, hcnp] at hresc
        simp only [if_pos hcin, Option.some.injEq, Prod.mk.injEq] at hresc
        rw [← hresc.1] at hembed
        exact hembed sentinel_mark
    | @step _ _ c hr hc hwc2 =>
      have hrS : r ∈ S := hS r (childRefs_nonPrim hc)
      have hcard1 : (S \ insert r s).card < fuel := by
        have := sdiff_card_insert hrS hr
        omega
      have H : ∀ c' : Ref, ∃ r2, make emptyEnv heap fuel (insert r s) c' = some (r2, insert r s) :=
        fun c' => make_spec emptyEnv heap S hS fuel (insert r s) c' hcard1
      obtain ⟨resc, hresc, hembed⟩ := make_child_embed heap fuel hr hc H hmk
      have hsp1 : ∀ x ∈ insert r s, (heap x).primRepr = none := by
        intro x hx
        rcases Finset.mem_insert.mp hx with rfl | hxs
        · exact childRefs_nonPrim hc
        · exact hsp x hxs
      exact hembed (make_cycle_mark heap S hS fuel (insert r s) _ resc _ hwc2 hsp1 hcard1 hresc)

/-! ## A sentinel in the compiled tree reaches the rendered lines -/

mutual

theorem slString_mark : ∀ x : FOS, hasCycMark x → SubStrP cycleSentinel (slString x)
  | .str _, h => subStrP_of_suffix h
  | .flex hd items t _, h => by
    have hb := slBodyStr_mark items h
    simp only [slString]
    exact ((hb.mono_right t).mono_left hd)

theorem slBodyStr_mark : ∀ l : List FOS, hasCycMarkL l → SubStrP cycleSentinel (slBodyStr l)
  | [], h => False.elim h
  | y :: ys, h => by
    have h2 : hasCycMark y ∨ hasCycMarkL ys := h
    simp only [slBodyStr]
    rcases h2 with hy | hys
    · exact (slString_mark y hy).mono_right (slRestStr ys)
    · exact (slRestStr_mark ys hys).mono_left (slString y)

theorem slRestStr_mark : ∀ l : List FOS, hasCycMarkL l → SubStrP cycleSentinel (slRestStr l)
  | [], h => False.elim h
  | y :: ys, h => by
    have h2 : hasCycMark y ∨ hasCycMarkL ys := h
    simp only [slRestStr]
    rcases h2 with hy | hys
    · exact (((slString_mark y hy).mono_right (slRestStr ys)).mono_left ", ")
    · exact (((slRestStr_mark ys hys).mono_left (slString y)).mono_left ", ")

end

theorem OBholds.mono {a b : OB} (h : OBholds a) (he : ObExtends a b) : OBholds b := by
  obtain ⟨⟨tl, htl⟩, ⟨e, hee⟩⟩ := he
  rcases h with ⟨L, hL, hsub⟩ | hsub
  · exact Or.inl ⟨L, by rw [htl]; exact List.mem_append_left _ hL, hsub⟩
  · rcases hee with hcur | hmem
    · exact Or.inr (by rw [hcur]; exact hsub.mono_right e)
    · exact Or.inl ⟨a.current ++ e, hmem, hsub.mono_right e⟩

theorem format_emit_of_body {iu : String} {maxW : Int} {x : FOS}
    (H : ∀ (o : OB) (lvl : Nat), hasCycMark x → OBholds (formatBody iu maxW x o lvl).1) :
    ∀ (out : OB) (lvl : Nat) (fm : Bool), hasCycMark x →
      OBholds (format iu maxW x out lvl fm).1 := by
  intro out lvl fm hm
  rw [format_eq_body]
  split_ifs with h1 h2
  · exact H _ lvl hm
  · rw [formatSingleLine_eq, OB.add_add]
    exact Or.inr (((slString_mark x hm).mono_left ", ").mono_left out.current)
  · exact H out lvl hm

mutual

theorem formatBody_emit : ∀ (iu : String) (maxW : Int) (x : FOS) (o : OB) (lvl : Nat),
    hasCycMark x → OBholds (formatBody iu maxW x o lvl).1
  | iu, maxW, .str s, o, lvl, hm =>
    Or.inr ((subStrP_of_suffix hm).mono_left o.current)
  | iu, maxW, .flex hd items t a, o, lvl, hm => by
    have hmL : hasCycMarkL items := hm
    rw [formatBody]
    split_ifs with hfits hemp haon
    · rw [formatSingleLine_eq]
      exact Or.inr ((slString_mark _ hm).mono_left o.current)
    · have : items = [] := List.isEmpty_iff.mp hemp
      subst this
      exact False.elim hmL
    · exact (aonItems_emit iu maxW items (fmtNewLine iu (o.add hd) (lvl + 1)) (lvl + 1)
        hmL).mono ((ObExtends.newLineR iu _ lvl).trans (ObExtends.addR _ t))
    · exact (seqItems_emit iu maxW items (fmtNewLine iu (o.add hd) (lvl + 1)) (lvl + 1) false
        hmL).mono ((ObExtends.newLineR iu _ lvl).trans (ObExtends.addR _ t))

theorem aonItems_emit : ∀ (iu : String) (maxW : Int) (l : List FOS) (out : OB) (lvl : Nat),
    hasCycMarkL l → OBholds (aonItems iu maxW l out lvl)
  | _, _, [], _, _, hm => False.elim hm
  | iu, maxW, y :: ys, out, lvl, hm => by
    have h2 : hasCycMark y ∨ hasCycMarkL ys := hm
    rw [aonItems]
    rcases h2 with hy | hys
    · exact (format_emit_of_body (formatBody_emit iu maxW y) out lvl false hy).mono
        (aonItemsRest_extends iu maxW ys _ lvl)
    · exact aonItemsRest_emit iu maxW ys _ lvl hys

theorem aonItemsRest_emit : ∀ (iu : String) (maxW : Int) (l : List FOS) (out : OB) (lvl : Nat),
    hasCycMarkL l → OBholds (aonItemsRest iu maxW l out lvl)
  | _, _, [], _, _, hm => False.elim hm
  | iu, maxW, y :: ys, out, lvl, hm => by
    have h2 : hasCycMark y ∨ hasCycMarkL ys := hm
    rw [aonItemsRest]
    rcases h2 with hy | hys
    · exact (format_emit_of_body (formatBody_emit iu maxW y) _ lvl false hy).mono
        (aonItemsRest_extends iu maxW ys _ lvl)
    · exact aonItemsRest_emit iu maxW ys _ lvl hys

theorem seqItems_emit : ∀ (iu : String) (maxW : Int) (l : List FOS) (out : OB) (lvl : Nat)
    (fm : Bool), hasCycMarkL l → OBholds (seqItems iu maxW l out lvl fm).1
  | _, _, [], _, _, _, hm => False.elim hm
  | iu, maxW, y :: ys, out, lvl, fm, hm => by
    have h2 : hasCycMark y ∨ hasCycMarkL ys := hm
    rw [seqItems]
    rcases h2 with hy | hys
    · exact (format_emit_of_body (formatBody_emit iu maxW y) out lvl fm hy).mono
        (seqItems_extends iu maxW ys _ lvl _)
    · exact seqItems_emit iu maxW ys _ lvl _ hys

end

theorem topFormat_emit (iu : String) (maxW : Int) (x : FOS) (hm : hasCycMark x) :
    ∃ L ∈ topFormatLines iu maxW x, SubStrP cycleSentinel L := by
  have h1 := format_emit_of_body (formatBody_emit iu maxW x) OB.empty 0 false hm
  rcases h1 with ⟨L, hL, hsub⟩ | hsub
  · refine ⟨L, ?_, hsub⟩
    simp only [topFormatLines, OB.flush, List.mem_append]
    exact Or.inl hL
  · refine ⟨(format iu maxW x OB.empty 0 false).1.current, ?_, hsub⟩
    simp only [topFormatLines, OB.flush, List.mem_append, List.mem_singleton]
    exact Or.inr trivial

/-! ## Remaining support lemmas -/

theorem str_empty_append (s : String) : "" ++ s = s := by
  apply String.ext
  rw [String.data_append]
  rfl

theorem topFormatLines_str (iu : String) (maxW : Int) (nm : String) :
    topFormatLines iu maxW (.str nm) = [nm] := by
  rw [topFormatLines, format_eq_body]
  have h0 : ¬ (OB.empty.current.length > 0 * iu.length) := by
    simp [OB.empty]
  rw [if_neg h0]
  show (((OB.empty.add nm), false).1.flush).lines = [nm]
  simp only [OB.empty, OB.add, OB.flush]
  rw [str_empty_append]
  rfl

theorem bodyWidthR_formula : ∀ l : List FOS, bodyWidthR l = (l.map totalWidth).sum + 2 * l.length
  | [] => rfl
  | y :: ys => by
    simp only [bodyWidthR, List.map_cons, List.sum_cons, List.length_cons,
      bodyWidthR_formula ys]
    omega

theorem bodyWidth_formula (y : FOS) (l : List FOS) :
    bodyWidth (y :: l) = ((y :: l).map totalWidth).sum + 2 * l.length := by
  rw [bodyWidth_cons, bodyWidthR_formula]
  simp only [List.map_cons, List.sum_cons]
  omega

/-! ## The claims -/

/-- C1, amended: every line produced by rendering a compiled value at
width `maxWidth` is at most `max maxWidth (height * |indentUnit| + widest
atomic token) + 1` columns long — the budget can be exceeded not only by
an oversized atomic token standing alone, but by the indentation in front
of a token and by the `","` appended when the following sibling is forced
to break. -/
theorem claim_c1 (env : Env) (heap : Heap) (fuel : Nat) (r : Ref) (maxW : Int) (iu : String)
    (res : FOS) (s2 : Finset Ref)
    (_hmk : make env heap fuel ∅ r = some (res, s2)) :
    ∀ L ∈ topFormatLines iu maxW res,
      L.length ≤ max maxW.toNat (heightF res * iu.length + maxTok res) + 1 := by
  intro L hL
  have hb := topFormatLines_bound iu maxW res L hL
  simp only [lineBound, Nat.zero_add] at hb
  exact hb

/-- C1, counterexample to the claim as stated: rendering the value
`[[['aaaaaaaaaa']]]` at `maxWidth = 8` with a four-column indent unit
produces the line `"        ["` of length 9 > 8, and no atomic token of
the tree that occurs in that line is itself wider than 8 (its only token
is the one-column `"["`). -/
theorem claim_c1_counterexample :
    (make emptyEnv c1cexHeap 10 ∅ 0).map Prod.fst = some c1cexTree ∧
    renderLines emptyEnv c1cexHeap 10 8 "    " 0 =
      some ["[", "    [", "        [", "            'aaaaaaaaaa'", "        ]", "    ]", "]"] ∧
    "        [" ∈ ["[", "    [", "        [", "            'aaaaaaaaaa'", "        ]",
      "    ]", "]"] ∧
    ¬ lineOkC1 8 (fosTokens c1cexTree) "        [" := by
  refine ⟨rfl, rfl, by decide, by decide⟩

/-- C1 witness: the amended bound instantiated on the value `[1, 2, 3]`
at `maxWidth = 78`. -/
theorem claim_c1_witness :
    make emptyEnv wTripleHeap 5 ∅ 0 =
      some (.flex "[" [.str "1", .str "2", .str "3"] "]" false, ∅) ∧
    "[1, 2, 3]" ∈ topFormatLines "    " 78 (.flex "[" [.str "1", .str "2", .str "3"] "]" false) ∧
    ("[1, 2, 3]" : String).length ≤
      max (Int.toNat 78)
        (heightF (.flex "[" [.str "1", .str "2", .str "3"] "]" false) * ("    " : String).length +
          maxTok (.flex "[" [.str "1", .str "2", .str "3"] "]" false)) + 1 :=
  ⟨rfl, by decide,
    claim_c1 emptyEnv wTripleHeap 5 0 78 "    "
      (.flex "[" [.str "1", .str "2", .str "3"] "]" false) ∅ rfl "[1, 2, 3]" (by decide)⟩

/-- C2: for a value graph with a reachable self-reference (and finitely
many non-primitive objects), compilation with enough fuel terminates and
the rendered text contains the substring `<ERROR:cycle>`; moreover `make`
on a non-primitive identity already in `_processing` returns the sentinel
immediately with the state unchanged. -/
theorem claim_c2 :
    (∀ (heap : Heap) (S : Finset Ref) (r : Ref) (fuel : Nat) (maxW : Int) (iu : String),
      NonPrimSupport S heap → S.card < fuel →
      (∃ v, Reaches heap r v ∧ CycleAt heap v) →
      ∃ lines, renderLines emptyEnv heap fuel maxW iu r = some lines ∧
        ∃ L ∈ lines, strHas L cycleSentinel) ∧
    (∀ (env : Env) (heap : Heap) (fuel : Nat) (s : Finset Ref) (r : Ref),
      (heap r).primRepr = none → r ∈ s →
      make env heap (fuel + 1) s r = some (.str cycleSentinel, s)) := by
  constructor
  · intro heap S r fuel maxW iu hS hfuel hcyc
    have hcard : (S \ ∅).card < fuel := by rw [Finset.sdiff_empty]; exact hfuel
    obtain ⟨res, hres⟩ := make_spec emptyEnv heap S hS fuel ∅ r hcard
    have hwc := willCycle_of_reach heap S hS S.card ∅ r (by rw [Finset.sdiff_empty])
      (Finset.not_mem_empty r) hcyc
    have hmark := make_cycle_mark heap S hS fuel ∅ r res ∅ hwc
      (fun x hx => absurd hx (Finset.not_mem_empty x)) hcard hres
    obtain ⟨L, hL, hsub⟩ := topFormat_emit iu maxW res hmark
    refine ⟨topFormatLines iu maxW res, ?_, L, hL, strHas_of_subStrP hsub⟩
    simp [renderLines, hres]
  · intro env heap fuel s r hnp hr
    rw [make_succ, hnp]
    simp [hr]

/-- C2 witness: the self-containing list `[...[itself]...]` renders, and
its rendering mentions the sentinel; the sentinel is also returned
directly for an identity already being compiled. -/
theorem claim_c2_witness :
    (∃ lines, renderLines emptyEnv c2witHeap 2 78 "    " 0 = some lines ∧
      ∃ L ∈ lines, strHas L cycleSentinel) ∧
    make emptyEnv c2witHeap 1 {0} 0 = some (.str cycleSentinel, {0}) := by
  constructor
  · refine claim_c2.1 c2witHeap {0} 0 2 78 "    " ?_ (by decide)
      ⟨0, Reaches.refl 0, 0, ?_, Reaches.refl 0⟩
    · intro r hr
      by_cases h : r = 0
      · simp [h]
      · simp [c2witHeap, h, PNode.primRepr] at hr
    · show (0 : Ref) ∈ childRefs (c2witHeap 0)
      decide
  · exact claim_c2.2 emptyEnv c2witHeap 0 {0} 0 rfl (by decide)

/-- C3, amended: the registry is scanned in registration order with the
first matching pair winning, and for a NON-PRIMITIVE value not already on
the recursion path, a matching prettifier whose transform yields a
`Symbol` makes the value compile — and hence render — as the bare symbol
name; primitive values, however, are returned as their `repr` before the
registry is ever consulted (see the counterexample). -/
theorem claim_c3 :
    (∀ (p1 : Ref → Bool) (t1 : Ref → Ref) (rest : List ((Ref → Bool) × (Ref → Ref))) (r : Ref),
      p1 r = true → findPrettifier ((p1, t1) :: rest) r = some t1) ∧
    (∀ (env : Env) (heap : Heap) (fuel : Nat) (s : Finset Ref) (r : Ref) (tr : Ref → Ref)
      (nm : String),
      (heap r).primRepr = none → r ∉ s →
      findPrettifier env.prettifiers r = some tr →
      (heap (tr r)).primRepr = none → tr r ∉ insert r s →
      findPrettifier env.prettifiers (tr r) = none →
      env.toPretty (tr r) = none →
      heap (tr r) = .symbol nm →
      make env heap (fuel + 2) s r = some (.str nm, s)) ∧
    (∀ (iu : String) (maxW : Int) (nm : String),
      topFormatLines iu maxW (.str nm) = [nm]) := by
  refine ⟨?_, ?_, ?_⟩
  · intro p1 t1 rest r hp
    simp [findPrettifier, hp]
  · intro env heap fuel s r tr nm hnp hr hfp hnp2 htr2 hfp2 htp2 hsym
    rw [make_succ, hnp]
    simp only [if_neg hr, hfp]
    rw [make_succ, hnp2]
    simp only [if_neg htr2, hfp2, htp2, hsym, Finset.erase_insert htr2, Finset.erase_insert hr]
  · intro iu maxW nm
    exact topFormatLines_str iu maxW nm

/-- C3, counterexample to the claim as stated: with a prettifier whose
predicate accepts everything and whose transform returns `Symbol("X")`,
the primitive integer 5 still renders as `5`, not as `X` — the primitive
check precedes the registry scan. -/
theorem claim_c3_counterexample :
    renderLines c3cexEnv c3cexHeap 5 78 "    " 0 = some ["5"] ∧
    (["5"] : List String) ≠ ["X"] := ⟨rfl, by decide⟩

/-- C3 witness: a prettifier matching the empty list (a non-primitive)
and transforming it into `Symbol("X")` makes it compile to the bare
string `X`, which renders as the single line `X`. -/
theorem claim_c3_witness :
    findPrettifier (((fun r : Ref => r == 0), (fun _ : Ref => 1)) :: []) 0 =
      some (fun _ : Ref => 1) ∧
    make c3witEnv c3witHeap 2 ∅ 0 = some (.str "X", ∅) ∧
    topFormatLines "    " 78 (.str "X") = ["X"] :=
  ⟨claim_c3.1 (fun r => r == 0) (fun _ => 1) [] 0 rfl,
   claim_c3.2.1 c3witEnv c3witHeap 0 ∅ 0 (fun _ => 1) "X" rfl (Finset.not_mem_empty 0) rfl rfl
     (by decide) rfl rfl rfl,
   claim_c3.2.2 "    " 78 "X"⟩

/-- C4, amended: compilation terminates and returns a compiled value
(restoring `_processing`) whenever the non-primitive objects the walk can
touch form a finite set `S` and the fuel exceeds the number of its
not-yet-active members; without such a bound — e.g. a registered
transform that hands back a fresh container on every call — the source
recursion does not terminate (see the counterexample). -/
theorem claim_c4 (env : Env) (heap : Heap) (S : Finset Ref) (fuel : Nat) (s : Finset Ref)
    (r : Ref) (hS : NonPrimSupport S heap) (hcard : (S \ s).card < fuel) :
    ∃ res, make env heap fuel s r = some (res, s) :=
  make_spec env heap S hS fuel s r hcard

theorem c4_no_fuel : ∀ (fuel : Nat) (s : Finset Ref) (r : Ref), (∀ x ∈ s, x < r) →
    make c4cexEnv c4cexHeap fuel s r = none
  | 0, _, _, _ => rfl
  | fuel + 1, s, r, hlt => by
    rw [make_succ]
    have h1 : (c4cexHeap r).primRepr = none := rfl
    have hr : r ∉ s := fun hrs => absurd (hlt r hrs) (lt_irrefl r)
    have h2 : findPrettifier c4cexEnv.prettifiers r = some (fun r => r + 1) := rfl
    have h3 : ∀ x ∈ insert r s, x < r + 1 := by
      intro x hx
      rcases Finset.mem_insert.mp hx with rfl | hxs
      · exact Nat.lt_succ_self x
      · exact Nat.lt_succ_of_lt (hlt x hxs)
    rw [h1]
    simp only [if_neg hr, h2, c4_no_fuel fuel (insert r s) (r + 1) h3]

/-- C4, counterexample to the claim as stated: the finite input value is
the empty tuple at identity 0, the registered predicate and transform are
total functions that never raise, yet `make` returns for no amount of
fuel — the transform always produces a fresh non-primitive object, so the
recursion `make(prettifier(x))` never bottoms out (in Python: a stack
overflow, i.e. a raise). -/
theorem claim_c4_counterexample :
    ¬ ∃ (fuel : Nat) (res : FOS) (s2 : Finset Ref),
        make c4cexEnv c4cexHeap fuel ∅ 0 = some (res, s2) := by
  rintro ⟨fuel, res, s2, hmk⟩
  rw [c4_no_fuel fuel ∅ 0 (fun x hx => absurd hx (Finset.not_mem_empty x))] at hmk
  exact Option.noConfusion hmk

/-- C4 witness: the amended termination bound instantiated on the value
`[1, 2, 3]`, whose only non-primitive object is the list itself. -/
theorem claim_c4_witness :
    ∃ res, make emptyEnv wTripleHeap 2 ∅ 0 = some (res, ∅) := by
  refine claim_c4 emptyEnv wTripleHeap {0} 2 ∅ 0 ?_ ?_
  · intro r hr
    simp only [wTripleHeap] at hr
    split_ifs at hr with h0 h1 h2
    · simp [h0]
    · simp [PNode.primRepr] at hr
    · simp [PNode.primRepr] at hr
    · simp [PNode.primRepr] at hr
  · rw [Finset.sdiff_empty]
    decide

/-- C5: a compiled mapping (under the default environment) is always a
`Flex` node with head `\x7b`, tail `\x7d` and the all-or-nothing flag set,
regardless of its children; in the all-or-nothing broken branch every
entry after the first is rendered from a builder whose previous line was
just completed with a trailing `","` and whose open line is exactly the
indentation, and rendering only ever appends to the completed lines — so
no two entries share an output line. -/
theorem claim_c5 :
    (∀ (heap : Heap) (fuel : Nat) (s : Finset Ref) (r : Ref) (es : List (String × Ref))
      (res : FOS) (sf : Finset Ref),
      heap r = .dict es → r ∉ s →
      make emptyEnv heap (fuel + 1) s r = some (res, sf) →
      ∃ items, res = .flex "\x7b" items "\x7d" true) ∧
    (∀ (iu : String) (maxW : Int) (y : FOS) (ys : List FOS) (out : OB) (lvl : Nat),
      aonItemsRest iu maxW (y :: ys) out lvl =
        aonItemsRest iu maxW ys
          (format iu maxW y ⟨out.lines ++ [out.current ++ ","], indentStr iu lvl⟩ lvl false).1
          lvl ∧
      (indentStr iu lvl).length = lvl * iu.length) ∧
    (∀ (iu : String) (maxW : Int) (x : FOS) (out : OB) (lvl : Nat) (fm : Bool),
      ∃ tl, (format iu maxW x out lvl fm).1.lines = out.lines ++ tl) := by
  refine ⟨?_, ?_, ?_⟩
  · intro heap fuel s r es res sf hn hr hmk
    rw [make_succ, hn] at hmk
    simp only [PNode.primRepr, if_neg hr, emptyEnv_noPrettifier, emptyEnv_noToPretty] at hmk
    cases hdc : dictCompile (make emptyEnv heap fuel) (insert r s) es with
    | none => rw [hdc] at hmk; simp at hmk
    | some ri =>
      rw [hdc] at hmk
      simp only [Option.bind_eq_bind, Option.some_bind, Option.some.injEq, Prod.mk.injEq] at hmk
      exact ⟨ri.1, hmk.1.symm⟩
  · intro iu maxW y ys out lvl
    exact ⟨rfl, indentStr_length iu lvl⟩
  · intro iu maxW x out lvl fm
    exact (format_extends iu maxW x out lvl fm).1

/-- C5 witness: the mapping of the specification's example,
`\x7b'a': 1, 'b': [1, 2, 3]\x7d` at `maxWidth = 10`, compiles to an
all-or-nothing brace node and renders with each entry on its own line. -/
theorem claim_c5_witness :
    make emptyEnv c5witHeap 10 ∅ 0 =
      some (.flex "\x7b" [.str "'a': 1",
        .flex "'b': [" [.str "1", .str "2", .str "3"] "]" false] "\x7d" true, ∅) ∧
    (∃ items, (.flex "\x7b" [.str "'a': 1",
        .flex "'b': [" [.str "1", .str "2", .str "3"] "]" false] "\x7d" true : FOS) =
      .flex "\x7b" items "\x7d" true) ∧
    renderLines emptyEnv c5witHeap 10 10 "    " 0 =
      some ["\x7b", "    'a': 1,", "    'b': [", "        1,", "        2,", "        3",
        "    ]", "\x7d"] :=
  ⟨rfl,
   claim_c5.1 c5witHeap 9 ∅ 0 [("'a'", 1), ("'b'", 2)] _ ∅ rfl (Finset.not_mem_empty 0) rfl,
   rfl⟩

/-- C6, amended: after a child reports multi-line rendering, the
IMMEDIATELY FOLLOWING sibling (at a position past the indent floor) is
forced onto a fresh line: its rendering starts from a builder whose
previous line was completed with a trailing `","` and whose open line is
exactly the indentation.  The flag is then recomputed from that sibling,
so the cascade stops at the first subsequent child that fits on its fresh
line — later siblings may share its line (see the counterexample). -/
theorem claim_c6 (iu : String) (maxW : Int) (y : FOS) (ys : List FOS) (out : OB) (lvl : Nat)
    (h1 : out.current.length > lvl * iu.length) :
    seqItems iu maxW (y :: ys) out lvl true =
      (let r := formatBody iu maxW y ⟨out.lines ++ [out.current ++ ","], indentStr iu lvl⟩ lvl
       seqItems iu maxW ys r.1 lvl r.2) ∧
    (indentStr iu lvl).length = lvl * iu.length := by
  constructor
  · rw [seqItems]
    rw [format_eq_body, if_pos h1, if_pos (Or.inl rfl)]
    rfl
  · exact indentStr_length iu lvl

/-- C6, counterexample to the claim as stated: in
`[['xxxxxxxxxx'], 1, 2]` at `maxWidth = 10` the first child breaks, the
sibling `1` is forced onto its own line, but the sibling `2` is then
packed onto `1`'s line (`"    1, 2"`); `2` does not get a line of its
own. -/
theorem claim_c6_counterexample :
    renderLines emptyEnv c6cexHeap 10 10 "    " 0 =
      some ["[", "    [", "        'xxxxxxxxxx'", "    ],", "    1, 2", "]"] ∧
    "    1, 2" ∈ ["[", "    [", "        'xxxxxxxxxx'", "    ],", "    1, 2", "]"] ∧
    "    2" ∉ ["[", "    [", "        'xxxxxxxxxx'", "    ],", "    1, 2", "]"] := by
  refine ⟨rfl, by decide, by decide⟩

/-- C6 witness: the amended forced-fresh-line step instantiated on a
concrete mid-line state. -/
theorem claim_c6_witness :
    seqItems "    " 10 [.str "1", .str "2"] ⟨["["], "    >"⟩ 1 true =
      (let r := formatBody "    " 10 (.str "1") ⟨["["] ++ ["    >,"], indentStr "    " 1⟩ 1
       seqItems "    " 10 [.str "2"] r.1 1 r.2) ∧
    (indentStr "    " 1).length = 1 * ("    " : String).length :=
  claim_c6 "    " 10 (.str "1") [.str "2"] ⟨["["], "    >"⟩ 1 (by decide)

/-- C7: whenever compilation succeeds, the `to_string` pipeline — forced
single-line rendering into a fresh builder followed by the final line
flush — produces exactly one output line, so the `assert len(lines) == 1`
never fails. -/
theorem claim_c7 (env : Env) (heap : Heap) (fuel : Nat) (r : Ref) (ls : List String)
    (h : toStringRun env heap fuel r = some ls) : ls.length = 1 := by
  cases hmk : make env heap fuel ∅ r with
  | none =>
    simp only [toStringRun, hmk] at h
    exact Option.noConfusion h
  | some res =>
    simp only [toStringRun, hmk, Option.some.injEq] at h
    rw [← h, formatSingleLine_eq]
    simp [OB.empty, OB.add, OB.flush]

/-- C7 witness: `to_string` of the list `[1, 2, 3]`. -/
theorem claim_c7_witness :
    toStringRun emptyEnv wTripleHeap 5 0 = some ["[1, 2, 3]"] ∧
    (["[1, 2, 3]"] : List String).length = 1 :=
  ⟨rfl, claim_c7 emptyEnv wTripleHeap 5 0 ["[1, 2, 3]"] rfl⟩

/-- C8, amended: the total width of a node is `len(head) + bodyWidth +
len(tail)`, a plain string's width is its length, and for a NON-EMPTY
item list the body width is the sum of the children's widths plus
`2 * (count - 1)`; for an empty item list the body width is 0 (not `-2`,
as the formula applied to zero items would demand — see the
counterexample). -/
theorem claim_c8 :
    (∀ (h : String) (items : List FOS) (t : String) (a : Bool),
      totalWidth (.flex h items t a) = h.length + bodyWidth items + t.length) ∧
    (∀ s : String, totalWidth (.str s) = s.length) ∧
    (∀ (y : FOS) (l : List FOS),
      (bodyWidth (y :: l) : Int) =
        ((((y :: l).map totalWidth).sum : Nat) : Int) + 2 * (((y :: l).length : Int) - 1)) ∧
    bodyWidth ([] : List FOS) = 0 := by
  refine ⟨fun _ _ _ _ => rfl, fun _ => rfl, ?_, rfl⟩
  intro y l
  rw [bodyWidth_formula]
  push_cast
  simp only [List.length_cons]
  push_cast
  ring

/-- C8, counterexample to the claim as stated: for an empty items list
the code's `body_width` is 0, while the claimed formula `sum + 2 *
(count - 1)` evaluates to `-2`. -/
theorem claim_c8_counterexample :
    ¬ ((bodyWidth ([] : List FOS) : Int) =
        (((([] : List FOS).map totalWidth).sum : Nat) : Int) +
          2 * (((([] : List FOS).length : Nat) : Int) - 1)) := by
  decide

/-- C9: `make` always removes the identity it added — under the fuel
bound the `_processing` set coming out equals the set going in (so it is
empty again after a top-level compile) — and a non-cyclic subvalue shared
twice inside a list is compiled fully both times, to two equal items,
with no sentinel involved. -/
theorem claim_c9 :
    (∀ (env : Env) (heap : Heap) (S : Finset Ref) (fuel : Nat) (s : Finset Ref) (r : Ref)
      (res : FOS) (s2 : Finset Ref), NonPrimSupport S heap → (S \ s).card < fuel →
      make env heap fuel s r = some (res, s2) → s2 = s) ∧
    (∀ (heap : Heap) (S : Finset Ref) (fuel : Nat) (r a : Ref),
      NonPrimSupport S heap → S.card < fuel → heap r = .lst [a, a] →
      ∃ m aonv, make emptyEnv heap (fuel + 1) ∅ r = some (.flex "[" [m, m] "]" aonv, ∅) ∧
        make emptyEnv heap fuel (insert r ∅) a = some (m, insert r ∅)) := by
  constructor
  · exact fun env heap S fuel s r res s2 hS hcard h =>
      make_restores env heap S hS fuel s r res s2 hcard h
  · intro heap S fuel r a hS hfuel hlst
    have hrnp : (heap r).primRepr = none := by rw [hlst]; rfl
    have hrS : r ∈ S := hS r hrnp
    have hcard1 : (S \ insert r ∅).card < fuel := by
      have h1 : (S \ insert r ∅).card < (S \ ∅).card :=
        sdiff_card_insert hrS (Finset.not_mem_empty r)
      rw [Finset.sdiff_empty] at h1
      omega
    obtain ⟨m, hm⟩ := make_spec emptyEnv heap S hS fuel (insert r ∅) a hcard1
    refine ⟨m, childAon [m, m], ?_, hm⟩
    rw [make_succ, hrnp]
    simp only [if_neg (Finset.not_mem_empty r), emptyEnv_noPrettifier, emptyEnv_noToPretty,
      hlst, seqCompile, hm, Option.bind_eq_bind, Option.some_bind,
      Finset.erase_insert (Finset.not_mem_empty r)]

/-- C9 witness: the shared-subvalue property instantiated on `[x, x]`
with `x = 7`. -/
theorem claim_c9_witness :
    ∃ m aonv, make emptyEnv c9witHeap 3 ∅ 0 = some (.flex "[" [m, m] "]" aonv, ∅) ∧
      make emptyEnv c9witHeap 2 (insert 0 ∅) 1 = some (m, insert 0 ∅) := by
  refine claim_c9.2 c9witHeap {0} 2 0 1 ?_ (by decide) rfl
  intro r hr
  simp only [c9witHeap] at hr
  split_ifs at hr with h0
  · simp [h0]
  · simp [PNode.primRepr] at hr

/-- C10: the layout recursion of the source terminates for every
compiled tree, every integer width budget (zero and negative included),
every level and any builder state: the literally transcribed recursion,
run with the structurally determined fuel, returns the same result as the
structural `format`. -/
theorem claim_c10 (iu : String) (maxW : Int) (fuel : Nat) (x : FOS) (out : OB) (lvl : Nat)
    (fm : Bool) (hf : fuelNeedF x ≤ fuel) :
    formatF iu maxW fuel x out lvl fm = some (format iu maxW x out lvl fm) :=
  formatF_spec iu maxW fuel x out lvl fm hf

/-- C10 witness: instantiated at a negative width budget and a dirty
builder state. -/
theorem claim_c10_witness :
    fuelNeedF (.flex "[" [.str "abc"] "]" false) ≤ 4 ∧
    formatF "    " (-3) 4 (.flex "[" [.str "abc"] "]" false) ⟨[], "xx"⟩ 0 true =
      some (format "    " (-3) (.flex "[" [.str "abc"] "]" false) ⟨[], "xx"⟩ 0 true) :=
  ⟨by decide,
   claim_c10 "    " (-3) 4 (.flex "[" [.str "abc"] "]" false) ⟨[], "xx"⟩ 0 true (by decide)⟩
